import Mathlib

/-!
Verification of the square-entropy / data-utility core of the PyDatAnalysis
repository against its natural-language specification.

The Python source operates on numpy float arrays.  Floats are modelled as
`Option ℚ`: `some q` is a finite value, `none` is NaN.  Arithmetic on floats
propagates NaN, which `Option.map₂` mirrors exactly.  Multi-dimensional numpy
arrays are modelled as nested lists (one nesting level per axis); numpy
functions that are rank-polymorphic in the source are embedded once per rank
at which the repository uses them.
-/

namespace PyDat

/-- A numpy float value: `none` models NaN. -/
abbrev FQ := Option ℚ

/-- Float addition (NaN-propagating). -/
def fadd (a b : FQ) : FQ := Option.map₂ (· + ·) a b

/-- Float subtraction (NaN-propagating). -/
def fsub (a b : FQ) : FQ := Option.map₂ (· - ·) a b

/-- Float multiplication (NaN-propagating; note numpy has `0 * NaN = NaN`,
matching `Option.map₂`). -/
def fmul (a b : FQ) : FQ := Option.map₂ (· * ·) a b

/-- Multiplication by `-1`, as in the source's `-1 * (...)`. -/
def fneg (a : FQ) : FQ := a.map (fun v => (-1) * v)

/-- Division of a float by a rational constant (used for means with a known
positive count, where float division is exact NaN-propagation). -/
def fdivn (a : FQ) (n : ℚ) : FQ := a.map (fun v => v / n)

/-- Sum of a list of floats, NaN-propagating (`np.sum`). -/
def fsum (l : List FQ) : FQ := l.foldr fadd (some 0)

/-- Mean of a list of floats (`np.mean` of a 1-D array): NaN on an empty list
(numpy emits a warning and returns NaN), NaN-propagating otherwise. -/
def fmean (l : List FQ) : FQ :=
  if l.length = 0 then none else fdivn (fsum l) l.length

/-- Mean of a list of genuine (non-NaN) rationals, as produced after the
NaN-removal step of `chunk_data`; NaN only on an empty list. -/
def qmean (l : List ℚ) : FQ :=
  if l.length = 0 then none else some (l.sum / l.length)

/-- Normalization of one bound of a Python slice `l[start:fin]` for a list of
length `n`: negative indices count from the end, then the result is clamped
to `[0, n]`. -/
def slicePos (n : ℕ) (i : ℤ) : ℕ := (min (if i < 0 then i + n else i) n).toNat

/-- Python/numpy basic slice `l[start:fin]` (step 1); `none` bounds are the
omitted/`None` bounds. -/
def pySlice (start fin : Option ℤ) (l : List α) : List α :=
  let s := slicePos l.length (start.getD 0)
  let e := match fin with
    | none => l.length
    | some f => slicePos l.length f
  (l.drop s).take (e - s)

/-- Consecutive chunks of length `n` of a list (the nested-list reading of a
numpy `reshape` whose total size is exact; a trailing remainder shorter than
`n`, which would make numpy's `reshape` raise, is discarded). -/
def chunksOf (n : ℕ) (l : List α) : List (List α) :=
  (List.range (l.length / n)).map (fun i => (l.drop (i * n)).take n)

/-- Mean of a stack of two equal-shape arrays along the stacking axis
(`np.mean(data[(i, j),], axis=0)` in the source), elementwise over the
flattened trailing axes. -/
def npMeanPair (a b : List FQ) : List FQ :=
  List.zipWith (fun u v => fdivn (fadd u v) 2) a b

/-- Shallow embedding of `SquareEntropy.entropy_signal`
(src/DatObject/Attributes/SquareEntropy.py): the first axis of `data` holds
the four setpoints v0_0, vP, v0_1, vM; the trailing axes are flattened into
one list since the operation is elementwise.  Source:
`-1 * (np.mean(data[(1, 3),], axis=0) - np.mean(data[(0, 2),], axis=0))`. -/
def entropy_signal (data : List (List FQ)) : List FQ :=
  (List.zipWith fsub (npMeanPair (data.getD 1 []) (data.getD 3 []))
    (npMeanPair (data.getD 0 []) (data.getD 2 []))).map fneg

/-- Tiling of a 1-D array along its (last) axis, as in
`np.tile(arr, reps)` for a scalar `reps` (used by `AWG.get_full_wave_masks`). -/
def npTile (reps : ℕ) (l : List α) : List α := (List.replicate reps l).flatten

/-- Shallow embedding of the mask row built inside `AWG.get_single_wave_masks`
(src/DatObject/Attributes/AWG.py): a zero row of length `sum lens` whose
slice `[sum lens[:i], sum lens[:i] + lens[i])` is set to `1`
(`m[s:s+lens[i]] = 1` on `np.zeros`), described positionwise. -/
def maskRowOnes (lens : List ℕ) (i : ℕ) : List ℚ :=
  (List.range lens.sum).map (fun p =>
    if (lens.take i).sum ≤ p ∧ p < (lens.take i).sum + lens.getD i 0 then 1 else 0)

/-- The source's `m[np.where(m == 0)] = np.nan`: every remaining zero of a
mask row becomes NaN. -/
def nanifyZeros (m : List ℚ) : List FQ :=
  m.map (fun v => if v = 0 then none else some v)

/-- Shallow embedding of `AWG.get_single_wave_masks`: one mask row per
setpoint of the arbitrary wave, built from the integer setpoint lengths
`lens` (= `aw[1].astype(int)`). -/
def get_single_wave_masks (lens : List ℕ) : List (List FQ) :=
  (List.range lens.length).map (fun i => nanifyZeros (maskRowOnes lens i))

/-- Shallow embedding of `AWG.get_full_wave_masks`:
`np.tile(single_masks, num_cycles * num_steps)` tiles each single-cycle mask
along the sample axis. -/
def get_full_wave_masks (lens : List ℕ) (num_steps num_cycles : ℕ) :
    List (List FQ) :=
  (get_single_wave_masks lens).map (npTile (num_cycles * num_steps))

/-- The chop step of `CU.bin_data_new` (src/core_util.py) on one axis:
with `num = len / b` and `chop = len - num * b`, keep
`data[floor(chop/2) : len - ceil(chop/2)]` (a Python slice, so a `drop`
then a `take` of the slice's length). -/
def chopAxis (b : ℕ) (l : List α) : List α :=
  ((l.drop ((l.length - l.length / b * b) / 2)).take
    (l.length - (l.length - l.length / b * b + 1) / 2
      - (l.length - l.length / b * b) / 2))

/-- Pointwise mean of a stack of equal-length rows
(the `reshape(..., num, bin, width).mean(axis=-2)` step of `bin_data_new`,
for one group of `bin` rows). -/
def meanCols (rows : List (List FQ)) : List FQ :=
  (List.range (rows.headD []).length).map
    (fun j => fmean (rows.map (fun r => r.getD j none)))

/-- Pointwise mean of a stack of equal-shape matrices (the z-axis mean step
of `bin_data_new`, for one group of `bin_z` matrices). -/
def meanMats (mats : List (List (List FQ))) : List (List FQ) :=
  (List.range (mats.headD []).length).map
    (fun i => meanCols (mats.map (fun mm => mm.getD i [])))

/-- The x-axis mean step of `bin_data_new`:
`reshape(rs0, rs1, num_x, bin_x).mean(axis=3)` on one (already chopped) row
is grouping into exact `bin_x`-chunks and averaging each. -/
def binExactX (b : ℕ) (l : List FQ) : List FQ := (chunksOf b l).map fmean

/-- The y-axis mean step of `bin_data_new`:
`reshape(rs0, num_y, bin_y, num_x).mean(axis=2)` on one (already chopped and
x-binned) matrix is grouping the rows into `bin_y`-chunks and averaging each
group pointwise. -/
def binExactY (b : ℕ) (m : List (List FQ)) : List (List FQ) :=
  (chunksOf b m).map meanCols

/-- Shallow embedding of `CU.bin_data_new` for 3-D data: chop every axis to a
multiple of its bin size (discarding `floor(chop/2)` leading and
`ceil(chop/2)` trailing slices), then mean the x axis, the y axis and the z
axis in `bin_x`-, `bin_y`-, `bin_z`-sized groups in that order. -/
def bin_data_new3 (data : List (List (List FQ))) (bin_x bin_y bin_z : ℕ) :
    List (List (List FQ)) :=
  (chunksOf bin_z
      (((chopAxis bin_z data).map
          (fun m => (chopAxis bin_y m).map (chopAxis bin_x))).map
        (fun m => binExactY bin_y (m.map (binExactX bin_x))))).map
    meanMats

/-- The `bin_data_new` call on 2-D data (the `np.array(data, ndmin=3)`
wrapper prepends a singleton z axis, `bin_z` stays at its default 1, and the
result is `data[0]`). -/
def bin_data_new2 (m : List (List FQ)) (bin_x bin_y : ℕ) : List (List FQ) :=
  (bin_data_new3 [m] bin_x bin_y 1).getD 0 []

/-- The `bin_data_new` call on 1-D data (`ndmin=3` prepends singleton y and z
axes, `bin_y` and `bin_z` stay at their default 1, the result is
`data[0, 0]`). -/
def bin_data_new1 (l : List FQ) (bin_x : ℕ) : List FQ :=
  ((bin_data_new3 [[l]] bin_x 1 1).getD 0 []).getD 0 []

/-- Binning of a single axis as Claim C9 describes it: discard to a multiple
of `b`, then mean consecutive groups of `b` values. -/
def binAxis1 (b : ℕ) (l : List FQ) : List FQ :=
  (chunksOf b (chopAxis b l)).map fmean

/-- Claim C9's single-axis binning applied to the row axis of a matrix. -/
def binAxisY (b : ℕ) (m : List (List FQ)) : List (List FQ) :=
  (chunksOf b (chopAxis b m)).map meanCols

/-- Claim C9's single-axis binning applied to the outer axis of a 3-D array. -/
def binAxisZ (b : ℕ) (t : List (List (List FQ))) : List (List (List FQ)) :=
  (chunksOf b (chopAxis b t)).map meanMats

/-- The editable slots of an `lm.Parameter` touched by `CU.edit_params`. -/
structure LMParam where
  value : ℚ
  vary : Bool
  min : ℚ
  max : ℚ
deriving DecidableEq

/-- An `lm.Parameters` object: an ordered mapping from parameter names to
parameters (lookup is by name; names are unique in `lm.Parameters`). -/
abbrev Parameters := List (String × LMParam)

/-- One pass of the loop body of `CU.edit_params` (src/core_util.py) for a
single parameter name: each of the four slots of `params[param_name]` is set
to the given value, or kept (`if ... is None: ... = params[param_name].<slot>`)
when `None` was given.  The update happens on the deep copy the source makes
at entry, so it is a pure map here. -/
def editStep (ps : Parameters) (name : String) (value : Option ℚ)
    (vary : Option Bool) (minVal maxVal : Option ℚ) : Parameters :=
  ps.map (fun kv =>
    if kv.1 = name then
      (kv.1, { value := value.getD kv.2.value, vary := vary.getD kv.2.vary,
               min := minVal.getD kv.2.min, max := maxVal.getD kv.2.max })
    else kv)

/-- Shallow embedding of `CU.edit_params`: the `zip` loop over parameter
names and the per-name value/vary/min/max options (after `_make_array` has
normalized a scalar or `None` argument to a list of options; `zip` stops at
the shortest list). -/
def edit_params : Parameters → List String → List (Option ℚ) →
    List (Option Bool) → List (Option ℚ) → List (Option ℚ) → Parameters
  | ps, n :: ns, v :: vs, y :: ys, mn :: mns, mx :: mxs =>
      edit_params (editStep ps n v y mn mx) ns vs ys mns mxs
  | ps, _, _, _, _, _ => ps

/-- One `lm.Parameter` as serialized with a fit: value, initial value,
bounds, whether it varied, and its standard error. -/
structure ParamEntry where
  value : ℚ
  init_value : ℚ
  min : ℚ
  max : ℚ
  vary : Bool
  stderr : Option ℚ
deriving DecidableEq

/-- The parameters of a fit, keyed by parameter name. -/
abbrev ParamsMap := List (String × ParamEntry)

/-- Modelled from the spec: the fit group written by `FitInfo.save_to_hdf`.
The helpers `params_to_HDF` and `params_from_HDF` live in src/HDF_Util.py,
which is not among the provided sources; the spec describes `FitInfo` as a
"wrapper around a curve-fit result (parameters, best values, report text)
with serialization to/from the file format", so the HDF group is modelled
as a faithful record of the parameter entries plus the three string
attributes `save_to_hdf` writes. -/
structure FitGroup where
  params : ParamsMap
  func_name : Option String
  func_code : Option String
  fit_report : Option String
deriving DecidableEq

/-- A parent HDF group: named fit subgroups.  Writing is modelled by
prepending, so `lookup` sees the latest write, matching h5py's overwrite
semantics. -/
abbrev HStore := List (String × FitGroup)

/-- The in-memory `FitInfo` fields that take part in the round-trip
(`fit_result` and `model` are runtime-only objects, `None` after a load). -/
structure FitInfo where
  params : Option ParamsMap
  func_name : Option String
  func_code : Option String
  fit_report : Option String
  best_values : List (String × ℚ)
  init_values : List (String × ℚ)
deriving DecidableEq

/-- Shallow embedding of `FitInfo.save_to_hdf`
(src/DatObject/Attributes/DatAttribute.py): with `params` present, the
parameters and the `func_name`, `func_code` and `fit_report` attributes are
written into the subgroup `name`; with `params` absent the method warns and
writes nothing. -/
def FitInfo.save_to_hdf (fi : FitInfo) (parent : HStore) (name : String) :
    HStore :=
  match fi.params with
  | none => parent
  | some ps => (name, ⟨ps, fi.func_name, fi.func_code, fi.fit_report⟩) :: parent

/-- Shallow embedding of `FitInfo.init_from_hdf`: the parameters and string
attributes come from the group, and `best_values` / `init_values` are
rebuilt from the loaded parameters (`par.value` / `par.init_value` per
name). -/
def FitInfo.init_from_hdf (g : FitGroup) : FitInfo :=
  { params := some g.params
    func_name := g.func_name
    func_code := g.func_code
    fit_report := g.fit_report
    best_values := g.params.map (fun kv => (kv.1, kv.2.value))
    init_values := g.params.map (fun kv => (kv.1, kv.2.init_value)) }

/-- Shallow embedding of `FitInfo.from_hdf`: fetch the subgroup and
initialize from it (`None` when the subgroup is missing, where the source
would fail on the absent group). -/
def FitInfo.from_hdf (parent : HStore) (name : String) : Option FitInfo :=
  (parent.lookup name).map FitInfo.init_from_hdf

/-- State of one `FittingAttribute`'s data access: the datasets of its HDF
Data group, the `MyLRU` cache of `get_data` (an ordered dictionary whose
last entry is the most recently used), and a count of HDF reads performed.
The dataset names are the cache keys (`MyLRU` hashes the argument tuple
without `self`; the hash is modelled as the key itself). -/
structure FAState where
  store : List (String × List FQ)
  cache : List (String × List FQ)
  reads : ℕ

/-- The `cache_replace` operation of `MyLRU` (src/core_util.py):
`cache[key] = value` on an ordered dictionary replaces the value in place
when the key is present and appends it at the end otherwise (no eviction). -/
def cache_replace (c : List (String × List FQ)) (k : String) (v : List FQ) :
    List (String × List FQ) :=
  if c.any (fun kv => kv.1 == k) then
    c.map (fun kv => if kv.1 = k then (k, v) else kv)
  else
    c ++ [(k, v)]

/-- Shallow embedding of `FittingAttribute.get_data` under `@MyLRU`
(src/DatObject/Attributes/DatAttribute.py and `MyLRU` in src/core_util.py):
on a cache hit the cached object is returned and moved to the end; on a
miss the dataset is read from the file (modelled from the spec:
`HDU.get_data` of src/HDF_Util.py is not among the provided sources; it
returns the named dataset), cached, and the oldest entry is evicted past
`maxsize = 128`. -/
def get_data (s : FAState) (k : String) : Option (List FQ) × FAState :=
  match s.cache.lookup k with
  | some v =>
      (some v, { s with
        cache := (s.cache.filter (fun kv => kv.1 != k)) ++ [(k, v)] })
  | none =>
      match s.store.lookup k with
      | none => (none, { s with reads := s.reads + 1 })
      | some v =>
          let c := s.cache ++ [(k, v)]
          (some v, { s with
            cache := if 128 < c.length then c.tail else c
            reads := s.reads + 1 })

/-- Shallow embedding of `FittingAttribute.set_data`: write the dataset
through to the HDF Data group (modelled from the spec: `HDU.set_data` of
src/HDF_Util.py overwrites the named dataset) and replace the value in
`get_data`'s cache directly via `cache_replace`. -/
def set_data (s : FAState) (k : String) (v : List FQ) : FAState :=
  { s with
    store := (k, v) :: s.store.filter (fun kv => kv.1 != k)
    cache := cache_replace s.cache k v }

/-- Transpose of the outer two axes of a nested-list array
(`np.moveaxis(arr, 0, 1)` / `np.moveaxis(arr, 1, 0)`, which coincide);
`d` is a default never used on rectangular data. -/
def transposeD (d : α) (m : List (List α)) : List (List α) :=
  (List.range (m.headD []).length).map (fun j => m.map (fun row => row.getD j d))

/-- The numpy mean of a stack of two equal-shape 2-D arrays along the
stacking axis, elementwise (rank-2 instance of `np.mean(data[(i, j),], 0)`). -/
def npMeanPair2 (a b : List (List FQ)) : List (List FQ) :=
  List.zipWith (fun ra rb => List.zipWith (fun u v => fdivn (fadd u v) 2) ra rb)
    a b

/-- Rank-2 instance of `SquareEntropy.entropy_signal` (first axis the four
setpoints, then rows, then steps), as called on the per-row cycled data. -/
def entropy_signal2 (data : List (List (List FQ))) : List (List FQ) :=
  (List.zipWith (fun ra rb => List.zipWith fsub ra rb)
    (npMeanPair2 (data.getD 1 []) (data.getD 3 []))
    (npMeanPair2 (data.getD 0 []) (data.getD 2 []))).map (fun r => r.map fneg)

/-- Shallow embedding of `np.linspace(a, b, n)` over exact rationals. -/
def np_linspace (a b : ℚ) (n : ℕ) : List ℚ :=
  if n = 0 then []
  else if n = 1 then [a]
  else (List.range n).map (fun i : ℕ => a + (i : ℚ) * (b - a) / ((n : ℚ) - 1))

/-- The `Input` dataclass of SquareEntropy.py (the fields
`process_per_row_parts` / `process_avg_parts` read). -/
structure Input where
  x_array : List ℚ
  i_sense : List (List FQ)
  num_steps : ℕ
  num_cycles : ℕ
  setpoint_lengths : List ℕ
  full_wave_masks : List (List FQ)
  centers : Option (List ℚ) := none
  avg_nans : Bool := false

/-- The `ProcessParams` dataclass of SquareEntropy.py: the four averaging
slice bounds (the transition-fit fields are runtime fitting configuration
not read by the processing functions embedded here). -/
structure ProcessParams where
  setpoint_start : Option ℤ := none
  setpoint_fin : Option ℤ := none
  cycle_start : Option ℤ := none
  cycle_fin : Option ℤ := none
deriving DecidableEq

/-- The `Output` dataclass of SquareEntropy.py. -/
structure Output where
  x : List ℚ := []
  chunked : List (List (List (List (List ℚ)))) := []
  setpoint_averaged : List (List (List (List FQ))) := []
  setpoint_averaged_x : List ℚ := []
  cycled : List (List (List FQ)) := []
  averaged : List (List FQ) := []
  centers_used : List ℚ := []
  entropy_signal : List (List FQ) := []
  average_entropy_signal : List FQ := []
  process_params : Option ProcessParams := none
deriving DecidableEq

/-- Shallow embedding of `SquareEntropy.chunk_data`: for each (mask,
setpoint length) pair, multiply the 2-D data by the full-scan mask (NaN
blanks every sample of the other setpoints), drop the NaNs
(`zm[~np.isnan(zm)]`, row-major), and reshape the kept samples to
`(ylen, num_steps, num_cycles, sp_len)` (nested exact chunking; numpy's
`reshape` raises when the count does not match, here the remainder is
dropped). -/
def chunk_data (data : List (List FQ)) (full_wave_masks : List (List FQ))
    (setpoint_lengths : List ℕ) (num_steps num_cycles : ℕ) :
    List (List (List (List (List ℚ)))) :=
  (full_wave_masks.zip setpoint_lengths).map (fun mp =>
    let zm := data.map (fun row => List.zipWith fmul row mp.1)
    let flat := zm.flatten.filterMap id
    chunksOf num_steps (chunksOf num_cycles (chunksOf mp.2 flat)))

/-- Shallow embedding of `SquareEntropy.average_setpoints`: per chunk,
`np.mean(np.moveaxis(z, -1, 0)[start:fin], axis=0)` is the mean over the
`[start:fin]` slice of the sample axis; the per-setpoint results are then
stacked and the setpoint axis moved behind the row axis
(`np.moveaxis(np.array(nz), 0, 1)`).  The source's squeeze of a singleton
row axis is a no-op for the 2-D scans (`ylen ≥ 2`) Claim C2 is about and is
not represented. -/
def average_setpoints (chunked : List (List (List (List (List ℚ)))))
    (start fin : Option ℤ) : List (List (List (List FQ))) :=
  transposeD []
    (chunked.map (fun z => z.map (fun steps => steps.map (fun cycles =>
      cycles.map (fun sp => qmean (pySlice start fin sp))))))

/-- Shallow embedding of `SquareEntropy.average_cycles`:
`np.mean(np.moveaxis(data, -1, 0)[start_cycle:fin_cycle], axis=0)` is the
mean over the `[start_cycle:fin_cycle]` slice of the cycle axis (the
`np.array(..., ndmin=4)` and squeeze steps are no-ops for `ylen ≥ 2`). -/
def average_cycles (binned : List (List (List (List FQ))))
    (start fin : Option ℤ) : List (List (List FQ)) :=
  binned.map (fun y => y.map (fun sp => sp.map (fun cycles =>
    fmean (pySlice start fin cycles))))

/-- Shallow embedding of `SquareEntropy.process_per_row_parts`: true x
array, chunked data, setpoint-averaged data, cycle-averaged data, and the
per-row entropy signal (`entropy_signal(np.moveaxis(output.cycled, 1, 0))`). -/
def process_per_row_parts (inp : Input) (pp : ProcessParams) : Output :=
  let chunked := chunk_data inp.i_sense inp.full_wave_masks
    inp.setpoint_lengths inp.num_steps inp.num_cycles
  let sa := average_setpoints chunked pp.setpoint_start pp.setpoint_fin
  let cycled := average_cycles sa pp.cycle_start pp.cycle_fin
  { x := np_linspace (inp.x_array.headD 0) (inp.x_array.getLastD 0)
      inp.num_steps
    chunked := chunked
    setpoint_averaged := sa
    setpoint_averaged_x := np_linspace (inp.x_array.headD 0)
      (inp.x_array.getLastD 0) (inp.num_steps * inp.num_cycles)
    cycled := cycled
    entropy_signal := entropy_signal2 (transposeD [] cycled)
    process_params := some pp }

/-- Linear interpolation over consecutive nodes: NaN left of the first and
right of the last node, `y1 + (y2 - y1) * (t - x1) / (x2 - x1)` on the
segment containing `t` (NaN-propagating in the node values). -/
def interpSeg : List (ℚ × FQ) → ℚ → FQ
  | [], _ => none
  | [(x1, y1)], t => if t = x1 then y1 else none
  | (x1, y1) :: (x2, y2) :: rest, t =>
      if t < x1 then none
      else if t ≤ x2 then
        Option.map₂ (fun a c => a + (c - a) * (t - x1) / (x2 - x1)) y1 y2
      else interpSeg ((x2, y2) :: rest) t

/-- Model of `scipy.interpolate.interp1d(xs, ys, kind=linear,
bounds_error=False)` evaluated at `t`, for already sorted `xs` (the
source's abscissae are shifted linspaces, so sorted). -/
def interp1d (xs : List ℚ) (ys : List FQ) (t : ℚ) : FQ :=
  interpSeg (xs.zip ys) t

/-- Shallow embedding of `CU.center_data` (src/core_util.py) with
`return_x=True`: shift each row's abscissa by its center, interpolate every
row onto the common new x array
`linspace(x[0] - avg_center, x[-1] - avg_center, width)`. -/
def center_data (x : List ℚ) (data : List (List FQ)) (centers : List ℚ) :
    List (List FQ) × List ℚ :=
  let avg_center := centers.sum / (centers.length : ℚ)
  let nx := np_linspace (x.headD 0 - avg_center) (x.getLastD 0 - avg_center)
    (data.headD []).length
  ((data.zip centers).map (fun rc =>
      nx.map (fun t => interp1d (x.map (fun xi => xi - rc.2)) rc.1 t)),
    nx)

/-- The mean over the row axis of one centered part
(`np.mean(ndata, axis=1)`, or `np.nanmean` when `avg_nans`). -/
def meanRows (avg_nans : Bool) (m : List (List FQ)) : List FQ :=
  (List.range (m.headD []).length).map (fun j =>
    if avg_nans then
      let vals := (m.map (fun r => r.getD j none)).filterMap id
      if vals.length = 0 then none else some (vals.sum / (vals.length : ℚ))
    else fmean (m.map (fun r => r.getD j none)))

/-- Shallow embedding of `SquareEntropy.average_2D` for 3-D data with the
centers given (the branch Claims C2/C7 exercise; with `centers=None` the
source first runs transition fits to find them): center each setpoint part
(`np.moveaxis(data, 1, 0)`), then mean over rows. -/
def average_2D (x : List ℚ) (data : List (List (List FQ))) (centers : List ℚ)
    (avg_nans : Bool) : List ℚ × List (List FQ) × List ℚ :=
  let parts := transposeD [] data
  let cps := parts.map (fun z => center_data x z centers)
  (((cps.headD ([], [])).2), cps.map (fun p => meanRows avg_nans p.1), centers)

/-- Shallow embedding of `SquareEntropy.process_avg_parts`: center and
average the cycled data, then compute the averaged entropy signal from the
averaged four-part data. -/
def process_avg_parts (out : Output) (inp : Input) (centers : List ℚ) :
    Output :=
  let r := average_2D out.x out.cycled centers inp.avg_nans
  { out with
    x := r.1
    averaged := r.2.1
    centers_used := r.2.2
    average_entropy_signal := entropy_signal r.2.1 }

/-- State of one dat's SquareEntropy attribute: the saved Outputs in the
HDF `Outputs` group (whose keys `Output_names` lists) and the in-memory
`self._Outputs` cache that `_get_saved_Outputs` consults first and
`_save_Outputs` keeps in sync. -/
structure SEState where
  hdfOutputs : List (String × Output)
  memOutputs : List (String × Output)

/-- Shallow embedding of `SquareEntropy.Output_names`: the keys of the HDF
`Outputs` group. -/
def Output_names (st : SEState) : List String := st.hdfOutputs.map Prod.fst

/-- Shallow embedding of `SquareEntropy._get_saved_Outputs`: return the
in-memory copy, loading it from the HDF group first if absent (`none`
models the `check_exists=True` NotFoundInHdfError of a missing group). -/
def get_saved_Outputs (st : SEState) (name : String) :
    Option Output × SEState :=
  match st.memOutputs.lookup name with
  | some out => (some out, st)
  | none =>
      match st.hdfOutputs.lookup name with
      | some out =>
          (some out, { st with memOutputs := (name, out) :: st.memOutputs })
      | none => (none, st)

/-- Shallow embedding of `SquareEntropy.get_Outputs`: `None` names become
"default"; with `overwrite` false a saved Output of that name is returned
as-is; otherwise `existing_only` raises NotFoundInHdfError; otherwise the
method fits, processes and saves — that tail (which runs lmfit transition
fits) is the continuation `compute`, universally quantified in the
theorems, which only concern the branches before it. -/
def get_Outputs (st : SEState) (name : Option String) (inputs : Option Input)
    (pp : Option ProcessParams) (overwrite existing_only : Bool)
    (compute : String → Option Input → Option ProcessParams → Bool → SEState
      → Except String (Output × SEState)) :
    Except String (Output × SEState) :=
  let nm := name.getD "default"
  if overwrite = false ∧ nm ∈ Output_names st then
    match get_saved_Outputs st nm with
    | (some out, st2) => .ok (out, st2)
    | (none, _) => .error "NotFoundInHdfError"
  else if existing_only then .error "NotFoundInHdfError"
  else compute nm inputs pp overwrite st

/-- Modelled from the spec: `get_dat_id` lives in src/DatObject/DatHDF.py,
which is not among the provided sources; per its use in `DatHandler.get_dat`
it builds the per-dat identifier from `datnum` and `datname`. -/
def get_dat_id (datnum : ℕ) (datname : String) : String :=
  "Dat" ++ toString datnum ++ "[" ++ datname ++ "]"

/-- The cache id `DatHandler.get_dat` builds: experiment directory name
plus the dat id. -/
def full_id (dirName : String) (datnum : ℕ) (datname : String) : String :=
  dirName ++ ":" ++ get_dat_id datnum datname

/-- Modelled from the spec: the datHDF file path for a dat
(`exp2hdf.get_datHDF_path()`, whose class lives outside the provided
sources); one file per (datnum, datname). -/
def datHDF_path (datnum : ℕ) (datname : String) : String :=
  get_dat_id datnum datname ++ ".h5"

/-- Modelled from the spec: the experiment data path for a dat
(`exp2hdf.get_exp_dat_path()`). -/
def exp_path (datnum : ℕ) : String := "exp" ++ toString datnum

/-- State of the `DatHandler`: open dats keyed by full id (DatHDF object
identity modelled by an allocation counter), the existing datHDF files,
the existing experiment data files, and the next fresh instance id. -/
structure HState where
  openDats : List (String × ℕ)
  datFiles : List String
  expFiles : List String
  nextId : ℕ

/-- Shallow embedding of `DatHandler.get_dat` (src/DatObject/Make_Dat.py):
with `overwrite` the datHDF file is deleted and the cache entry dropped;
a cached dat is returned as-is; otherwise an existing file is opened, or
the dat is built from experiment data (creating its file), or
FileNotFoundError is raised (`_check_exp_data_exists`; its synchronization
attempt is modelled by the experiment-file check). -/
def get_dat (st : HState) (dirName : String) (datnum : ℕ) (datname : String)
    (overwrite : Bool) : Except String (ℕ × HState) :=
  let fid := full_id dirName datnum datname
  let path := datHDF_path datnum datname
  let st1 := if overwrite then
      { st with datFiles := st.datFiles.filter (fun p => p != path)
                openDats := st.openDats.filter (fun kv => kv.1 != fid) }
    else st
  match st1.openDats.lookup fid with
  | some d => .ok (d, st1)
  | none =>
      if path ∈ st1.datFiles then
        .ok (st1.nextId, { st1 with
          openDats := (fid, st1.nextId) :: st1.openDats
          nextId := st1.nextId + 1 })
      else if exp_path datnum ∈ st1.expFiles then
        .ok (st1.nextId, { st1 with
          openDats := (fid, st1.nextId) :: st1.openDats
          datFiles := path :: st1.datFiles
          nextId := st1.nextId + 1 })
      else .error "FileNotFoundError"

/-- The entropy-signal combination of the four setpoint values at one
position, as Claim C2 states it: minus (mean of the heated setpoints vP,
vM minus mean of the unheated setpoints v0_0, v0_1), in NaN-propagating
float arithmetic. -/
def entropyCombo (a b c d : FQ) : FQ :=
  fneg (fsub (fdivn (fadd b d) 2) (fdivn (fadd a c) 2))

/-- A concrete two-row, four-setpoint, one-step, one-cycle square-wave scan
used to instantiate the processing pipeline. -/
def c2inp : Input :=
  { x_array := [0, 1]
    i_sense := [[some 1, some 2, some 3, some 4],
                [some 5, some 6, some 7, some 8]]
    num_steps := 1
    num_cycles := 1
    setpoint_lengths := [1, 1, 1, 1]
    full_wave_masks := get_full_wave_masks [1, 1, 1, 1] 1 1 }

/-- The default `ProcessParams` (all four slice bounds `None`). -/
def c2pp : ProcessParams := {}

/-- Positions below `lens.sum` fall into exactly one of the consecutive
blocks of lengths `lens`. -/
theorem block_index_existsUnique (lens : List ℕ) (p : ℕ) (hp : p < lens.sum) :
    ∃! i, i < lens.length ∧
      (lens.take i).sum ≤ p ∧ p < (lens.take i).sum + lens.getD i 0 := by
  induction lens generalizing p with
  | nil => simp at hp
  | cons a t ih =>
    by_cases hpa : p < a
    · refine ⟨0, ⟨by simp, by simpa using hpa⟩, ?_⟩
      rintro j ⟨hj, hj1, hj2⟩
      cases j with
      | zero => rfl
      | succ j' =>
        exfalso
        simp only [List.take_succ_cons, List.sum_cons] at hj1
        omega
    · have hpa' : a ≤ p := by omega
      have hp' : p - a < t.sum := by
        simp only [List.sum_cons] at hp; omega
      obtain ⟨i', ⟨hi'k, hi'1, hi'2⟩, hi'u⟩ := ih (p - a) hp'
      refine ⟨i' + 1, ⟨by simpa using hi'k, ?_, ?_⟩, ?_⟩
      · simp only [List.take_succ_cons, List.sum_cons]; omega
      · simp only [List.take_succ_cons, List.sum_cons, List.getD_cons_succ]
        omega
      · rintro j ⟨hj, hj1, hj2⟩
        cases j with
        | zero => simp at hj1 hj2; omega
        | succ j' =>
          simp only [List.take_succ_cons, List.sum_cons,
            List.getD_cons_succ] at hj1 hj2
          have := hi'u j' ⟨by simpa using hj, by omega, by omega⟩
          omega

/-- Entry `t * l.length + p` of a tiled list is entry `p` of the original. -/
theorem npTile_getD (l : List α) (d : α) (reps t p : ℕ) (ht : t < reps)
    (hp : p < l.length) :
    (npTile reps l).getD (t * l.length + p) d = l.getD p d := by
  induction reps generalizing t with
  | zero => omega
  | succ r ih =>
    have hjoin : npTile (r + 1) l = l ++ npTile r l := by
      simp [npTile, List.replicate_succ]
    rw [hjoin]
    cases t with
    | zero =>
      simp only [Nat.zero_mul, Nat.zero_add]
      exact List.getD_append _ _ _ _ hp
    | succ t' =>
      have hidx : (t' + 1) * l.length + p = l.length + (t' * l.length + p) := by
        ring
      rw [hidx, List.getD_append_right _ _ _ _ (by omega)]
      have : l.length + (t' * l.length + p) - l.length = t' * l.length + p := by
        omega
      rw [this]
      exact ih t' (by omega)

/-- Length of a tiled list. -/
theorem npTile_length (l : List α) (reps : ℕ) :
    (npTile reps l).length = reps * l.length := by
  induction reps with
  | zero => simp [npTile]
  | succ r ih =>
    have hjoin : npTile (r + 1) l = l ++ npTile r l := by
      simp [npTile, List.replicate_succ]
    rw [hjoin]
    simp [ih]
    ring

end PyDat

namespace PyDat

/-- Claim C1: for data whose first axis has length 4 (phases v0_0, vP, v0_1,
vM), `entropy_signal` returns the elementwise value
`-((data[1] + data[3])/2 - (data[0] + data[2])/2)` — the mean of the two
unheated phases minus the mean of the two heated phases — with the shape of
`data` minus its first axis (here: the flattened trailing length `n`). -/
theorem entropy_signal_correct (data : List (List FQ)) (n : ℕ)
    (h4 : data.length = 4)
    (hlen : ∀ row ∈ data, row.length = n) :
    (entropy_signal data).length = n ∧
    ∀ i < n, ∀ a b c d : ℚ,
      (data.getD 0 []).getD i none = some a →
      (data.getD 1 []).getD i none = some b →
      (data.getD 2 []).getD i none = some c →
      (data.getD 3 []).getD i none = some d →
      (entropy_signal data).getD i none = some (-((b + d) / 2 - (a + c) / 2)) := by
  rcases data with _ | ⟨r0, _ | ⟨r1, _ | ⟨r2, _ | ⟨r3, _ | ⟨r4, rest⟩⟩⟩⟩⟩ <;>
    simp only [List.length_nil, List.length_cons] at h4 <;> try omega
  have h0 : r0.length = n := hlen r0 (by simp)
  have h1 : r1.length = n := hlen r1 (by simp)
  have h2 : r2.length = n := hlen r2 (by simp)
  have h3 : r3.length = n := hlen r3 (by simp)
  constructor
  · simp [entropy_signal, npMeanPair, h0, h1, h2, h3]
  · intro i hi a b c d ha hb hc hd
    have hi0 : i < r0.length := by omega
    have hi1 : i < r1.length := by omega
    have hi2 : i < r2.length := by omega
    have hi3 : i < r3.length := by omega
    have hes : i < (entropy_signal [r0, r1, r2, r3]).length := by
      simp [entropy_signal, npMeanPair, h0, h1, h2, h3]; omega
    simp only [List.getD_cons_zero, List.getD_cons_succ] at ha hb hc hd
    rw [List.getD_eq_getElem _ _ hes]
    rw [List.getD_eq_getElem _ _ hi0] at ha
    rw [List.getD_eq_getElem _ _ hi1] at hb
    rw [List.getD_eq_getElem _ _ hi2] at hc
    rw [List.getD_eq_getElem _ _ hi3] at hd
    simp [entropy_signal, npMeanPair, List.getElem_map, List.getElem_zipWith,
      ha, hb, hc, hd, fsub, fadd, fdivn, fneg, Option.map₂]

/-- Witness for C1 at a concrete input. -/
theorem entropy_signal_correct_witness :
    (entropy_signal [[some 1], [some 2], [some 3], [some 4]]).getD 0 none
      = some (-(((2 : ℚ) + 4) / 2 - ((1 : ℚ) + 3) / 2)) := by
  have h := entropy_signal_correct [[some 1], [some 2], [some 3], [some 4]] 1
    (by simp) (by intro row hr; fin_cases hr <;> simp)
  exact h.2 0 (by norm_num) 1 2 3 4 rfl rfl rfl rfl

/-- Entry `p` of single-cycle mask `i`: `1` inside the block of setpoint `i`,
NaN outside. -/
theorem single_wave_mask_entry (lens : List ℕ) (i : ℕ) (hi : i < lens.length)
    (p : ℕ) (hp : p < lens.sum) :
    ((get_single_wave_masks lens).getD i []).getD p none =
      if (lens.take i).sum ≤ p ∧ p < (lens.take i).sum + lens.getD i 0
      then some 1 else none := by
  have hmask : (get_single_wave_masks lens).getD i []
      = nanifyZeros (maskRowOnes lens i) := by
    rw [get_single_wave_masks,
      List.getD_eq_getElem _ _ (by simpa using hi)]
    simp
  rw [hmask]
  have hlen : p < (nanifyZeros (maskRowOnes lens i)).length := by
    simpa [nanifyZeros, maskRowOnes] using hp
  rw [List.getD_eq_getElem _ _ hlen]
  have hgd : lens.getD i 0 = lens[i] := List.getD_eq_getElem lens 0 hi
  rw [hgd]
  simp only [nanifyZeros, maskRowOnes, List.getElem_map, List.getElem_range, hgd]
  by_cases hc : (lens.take i).sum ≤ p ∧ p < (lens.take i).sum + lens[i]
  · simp only [if_pos hc]
    norm_num
  · simp only [if_neg hc]
    norm_num

/-- Claim C6: for an arbitrary wave with setpoint lengths `lens`,
`get_single_wave_masks` returns `lens.length` masks of length `lens.sum`,
each `1` exactly on the contiguous block of its setpoint and NaN elsewhere,
so each sample position of one cycle has exactly one mask equal to `1`;
`get_full_wave_masks` is these masks tiled `num_cycles * num_steps` times,
and the tiled masks partition every position of the full scan. -/
theorem awg_wave_masks_correct (lens : List ℕ) (num_steps num_cycles : ℕ) :
    (get_single_wave_masks lens).length = lens.length ∧
    (∀ i < lens.length,
      ((get_single_wave_masks lens).getD i []).length = lens.sum) ∧
    (∀ i < lens.length, ∀ p < lens.sum,
      ((get_single_wave_masks lens).getD i []).getD p none =
        if (lens.take i).sum ≤ p ∧ p < (lens.take i).sum + lens.getD i 0
        then some 1 else none) ∧
    (∀ p < lens.sum, ∃! i, i < lens.length ∧
      ((get_single_wave_masks lens).getD i []).getD p none = some 1) ∧
    (get_full_wave_masks lens num_steps num_cycles).length = lens.length ∧
    (∀ i < lens.length,
      (get_full_wave_masks lens num_steps num_cycles).getD i [] =
        npTile (num_cycles * num_steps) ((get_single_wave_masks lens).getD i [])) ∧
    (∀ i < lens.length, ∀ t < num_cycles * num_steps, ∀ p < lens.sum,
      ((get_full_wave_masks lens num_steps num_cycles).getD i []).getD
          (t * lens.sum + p) none =
        ((get_single_wave_masks lens).getD i []).getD p none) ∧
    (∀ q < num_cycles * num_steps * lens.sum, ∃! i, i < lens.length ∧
      ((get_full_wave_masks lens num_steps num_cycles).getD i []).getD q none
        = some 1) := by
  have hlen1 : ∀ i < lens.length,
      ((get_single_wave_masks lens).getD i []).length = lens.sum := by
    intro i hi
    rw [get_single_wave_masks,
      List.getD_eq_getElem _ _ (by simpa using hi)]
    simp [nanifyZeros, maskRowOnes]
  have hentry := single_wave_mask_entry lens
  have hone : ∀ p < lens.sum, ∀ i, i < lens.length →
      (((get_single_wave_masks lens).getD i []).getD p none = some 1 ↔
        (lens.take i).sum ≤ p ∧ p < (lens.take i).sum + lens.getD i 0) := by
    intro p hp i hi
    rw [hentry i hi p hp]
    by_cases h : (lens.take i).sum ≤ p ∧ p < (lens.take i).sum + lens.getD i 0
    · rw [if_pos h]
      exact iff_of_true rfl h
    · rw [if_neg h]
      exact iff_of_false (by simp) h
  have hsingle : ∀ p < lens.sum, ∃! i, i < lens.length ∧
      ((get_single_wave_masks lens).getD i []).getD p none = some 1 := by
    intro p hp
    obtain ⟨i0, ⟨hi0k, hi0b⟩, hi0u⟩ := block_index_existsUnique lens p hp
    refine ⟨i0, ⟨hi0k, (hone p hp i0 hi0k).mpr hi0b⟩, ?_⟩
    rintro j ⟨hjk, hj⟩
    exact hi0u j ⟨hjk, (hone p hp j hjk).mp hj⟩
  have hfull_eq : ∀ i < lens.length,
      (get_full_wave_masks lens num_steps num_cycles).getD i [] =
        npTile (num_cycles * num_steps)
          ((get_single_wave_masks lens).getD i []) := by
    intro i hi
    rw [get_full_wave_masks]
    rw [List.getD_eq_getElem _ _ (by simpa [get_single_wave_masks] using hi),
      List.getElem_map,
      List.getD_eq_getElem _ _ (by simpa [get_single_wave_masks] using hi)]
  have htiled : ∀ i < lens.length, ∀ t < num_cycles * num_steps,
      ∀ p < lens.sum,
      ((get_full_wave_masks lens num_steps num_cycles).getD i []).getD
          (t * lens.sum + p) none =
        ((get_single_wave_masks lens).getD i []).getD p none := by
    intro i hi t ht p hp
    rw [hfull_eq i hi]
    have hl := hlen1 i hi
    calc (npTile (num_cycles * num_steps)
          ((get_single_wave_masks lens).getD i [])).getD (t * lens.sum + p) none
        = (npTile (num_cycles * num_steps)
          ((get_single_wave_masks lens).getD i [])).getD
            (t * ((get_single_wave_masks lens).getD i []).length + p) none := by
          rw [hl]
      _ = ((get_single_wave_masks lens).getD i []).getD p none :=
          npTile_getD _ _ _ _ _ ht (by omega)
  refine ⟨by simp [get_single_wave_masks], hlen1,
    fun i hi p hp => hentry i hi p hp, hsingle,
    by simp [get_full_wave_masks, get_single_wave_masks], hfull_eq, htiled, ?_⟩
  intro q hq
  have hL : 0 < lens.sum := by
    rcases Nat.eq_zero_or_pos lens.sum with h | h
    · rw [h] at hq; omega
    · exact h
  have hqdecomp : q = q / lens.sum * lens.sum + q % lens.sum :=
    (Nat.div_add_mod' q lens.sum).symm
  have hq' : q < lens.sum * (num_cycles * num_steps) := by
    rw [Nat.mul_comm]; exact hq
  have ht : q / lens.sum < num_cycles * num_steps :=
    Nat.div_lt_of_lt_mul hq'
  have hp : q % lens.sum < lens.sum := Nat.mod_lt _ hL
  obtain ⟨i0, ⟨hi0k, hi0b⟩, hi0u⟩ := hsingle (q % lens.sum) hp
  refine ⟨i0, ⟨hi0k, ?_⟩, ?_⟩
  · rw [hqdecomp, htiled i0 hi0k _ ht _ hp]
    exact hi0b
  · rintro j ⟨hjk, hj⟩
    rw [hqdecomp, htiled j hjk _ ht _ hp] at hj
    exact hi0u j ⟨hjk, hj⟩

/-- Chopping commutes with mapping a function over the axis's elements. -/
theorem chopAxis_map (b : ℕ) (f : α → β) (l : List α) :
    chopAxis b (l.map f) = (chopAxis b l).map f := by
  simp [chopAxis, List.map_take, List.map_drop]

/-- Length of a chopped axis: the largest multiple of `b` not exceeding the
original length. -/
theorem chopAxis_length (b : ℕ) (l : List α) :
    (chopAxis b l).length = l.length / b * b := by
  have h := Nat.div_mul_le_self l.length b
  have h2 : (l.length - l.length / b * b + 1) / 2
      + (l.length - l.length / b * b) / 2 = l.length - l.length / b * b := by
    omega
  simp only [chopAxis, List.length_take, List.length_drop]
  omega

/-- Number of chunks produced by `chunksOf`. -/
theorem chunksOf_length (b : ℕ) (l : List α) :
    (chunksOf b l).length = l.length / b := by
  simp [chunksOf]

/-- Chunk `i` of `chunksOf`. -/
theorem chunksOf_getD (b : ℕ) (l : List α) (i : ℕ) (hi : i < l.length / b) :
    (chunksOf b l).getD i [] = (l.drop (i * b)).take b := by
  rw [chunksOf, List.getD_eq_getElem _ _ (by simpa using hi)]
  simp

/-- Every full chunk has length exactly `b`. -/
theorem chunksOf_getD_length (b : ℕ) (l : List α) (i : ℕ) (hb : 0 < b)
    (hi : i < l.length / b) :
    ((chunksOf b l).getD i []).length = b := by
  rw [chunksOf_getD b l i hi]
  have h1 : (i + 1) * b ≤ l.length / b * b := Nat.mul_le_mul_right b (by omega)
  have h2 := Nat.div_mul_le_self l.length b
  have h3 : (i + 1) * b = i * b + b := by ring
  simp only [List.length_take, List.length_drop]
  omega

/-- Reading back a list from its `getD` values. -/
theorem map_getD_range (l : List α) (d : α) :
    (List.range l.length).map (fun j => l.getD j d) = l := by
  apply List.ext_getElem (by simp)
  intro i h1 h2
  simp [List.getD_eq_getElem l d h2, List.getElem?_eq_getElem h2]

/-- Mean of a one-element float list. -/
theorem fmean_singleton (x : FQ) : fmean [x] = x := by
  cases x <;> simp [fmean, fsum, fadd, fdivn, Option.map₂]

/-- Pointwise mean of a single row is that row. -/
theorem meanCols_singleton (r : List FQ) : meanCols [r] = r := by
  have h : ∀ j, fmean ([r].map (fun row => row.getD j none)) = r.getD j none := by
    intro j
    simp [fmean_singleton]
  simp only [meanCols, List.headD_cons, h]
  exact map_getD_range r none

/-- Pointwise mean of a single matrix is that matrix. -/
theorem meanMats_singleton (m : List (List FQ)) : meanMats [m] = m := by
  have h : ∀ i, meanCols ([m].map (fun mm => mm.getD i [])) = m.getD i [] := by
    intro i
    simp [meanCols_singleton]
  simp only [meanMats, List.headD_cons, h]
  exact map_getD_range m []

/-- Chopping with bin size 1 keeps everything. -/
theorem chopAxis_one (l : List α) : chopAxis 1 l = l := by
  simp [chopAxis]

/-- Sum of a lifted list of rationals. -/
theorem fsum_map_some (vs : List ℚ) : fsum (vs.map some) = some vs.sum := by
  induction vs with
  | nil => simp [fsum]
  | cons v t ih => simp [fsum, fadd, Option.map₂] at ih ⊢; simp [ih]

/-- Mean of a lifted nonempty list of rationals. -/
theorem fmean_map_some (vs : List ℚ) (h : vs ≠ []) :
    fmean (vs.map some) = some (vs.sum / vs.length) := by
  have hl : vs.length ≠ 0 := by simpa using h
  simp [fmean, fsum_map_some, fdivn, hl]

/-- The chop-everything-then-mean-each-axis implementation of `bin_data_new`
is the composition of the three single-axis binning operators. -/
theorem bin_data_new3_axes (data : List (List (List FQ))) (bx bq bz : ℕ) :
    bin_data_new3 data bx bq bz =
      binAxisZ bz (data.map (fun m => binAxisY bq (m.map (binAxis1 bx)))) := by
  simp only [bin_data_new3, binAxisZ, binAxisY, binAxis1, binExactY,
    binExactX, chopAxis_map, List.map_map, Function.comp_def]
  rfl

/-- On 1-D input (wrapped to 3-D by `ndmin=3` and unwrapped by `[0, 0]`),
`bin_data_new` is the single-axis x binning. -/
theorem bin_data_new1_eq (l : List FQ) (b : ℕ) :
    bin_data_new1 l b = binAxis1 b l := by
  rw [bin_data_new1, bin_data_new3_axes]
  simp only [List.map_cons, List.map_nil]
  rw [show binAxisY 1 [binAxis1 b l] = [binAxis1 b l] from ?side1]
  · rw [show binAxisZ 1 [[binAxis1 b l]] = [[binAxis1 b l]] from ?side2]
    · simp
    case side2 =>
      simp [binAxisZ, chopAxis_one, chunksOf, meanMats_singleton,
        List.range_succ, List.range_zero, Function.comp_def]
  case side1 =>
    simp [binAxisY, chopAxis_one, chunksOf, meanCols_singleton,
      List.range_succ, List.range_zero, Function.comp_def]

/-- On 2-D input (wrapped to 3-D by `ndmin=3` and unwrapped by `[0]`),
`bin_data_new` is x binning of each row followed by y binning of the rows. -/
theorem bin_data_new2_eq (m : List (List FQ)) (bx bq : ℕ) :
    bin_data_new2 m bx bq = binAxisY bq (m.map (binAxis1 bx)) := by
  rw [bin_data_new2, bin_data_new3_axes]
  simp only [List.map_cons, List.map_nil]
  rw [show binAxisZ 1 [binAxisY bq (m.map (binAxis1 bx))]
      = [binAxisY bq (m.map (binAxis1 bx))] from ?side3]
  · simp
  case side3 =>
    simp [binAxisZ, chopAxis_one, chunksOf, meanMats_singleton,
      List.range_succ, List.range_zero, Function.comp_def]

/-- The default head of a list is its entry 0. -/
theorem headD_eq_getD (l : List α) (d : α) : l.headD d = l.getD 0 d := by
  cases l <;> simp

/-- Default head commutes with `map` when the defaults correspond. -/
theorem headD_map_comm (f : α → β) (l : List α) (d : α) :
    (l.map f).headD (f d) = f (l.headD d) := by
  cases l <;> simp

/-- Entry `j` of a mapped range. -/
theorem getD_range_map (f : ℕ → α) (L j : ℕ) (hj : j < L) (d : α) :
    ((List.range L).map f).getD j d = f j := by
  rw [List.getD_eq_getElem _ _ (by simpa using hj)]
  simp

/-- Entry of a mapped list at an in-bounds index. -/
theorem getD_map_lt (f : α → β) (l : List α) (i : ℕ) (hi : i < l.length)
    (d : α) (e : β) :
    (l.map f).getD i e = f (l.getD i d) := by
  rw [List.getD_eq_getElem _ _ (by simpa using hi), List.getElem_map,
    List.getD_eq_getElem _ _ hi]

/-- Entry of a `drop`-then-`take` window. -/
theorem take_drop_getD (l : List α) (s t i : ℕ) (d : α) (hi : i < t)
    (hst : s + t ≤ l.length) :
    ((l.drop s).take t).getD i d = l.getD (s + i) d := by
  have h1 : i < ((l.drop s).take t).length := by
    simp only [List.length_take, List.length_drop]
    omega
  rw [List.getD_eq_getElem _ _ h1, List.getElem_take, List.getElem_drop,
    List.getD_eq_getElem _ _ (by omega)]

/-- In-bounds `getD` values are members. -/
theorem getD_mem (l : List α) (i : ℕ) (d : α) (hi : i < l.length) :
    l.getD i d ∈ l := by
  rw [List.getD_eq_getElem _ _ hi]
  exact List.getElem_mem hi

/-- Length of a pointwise row mean. -/
theorem meanCols_length (rows : List (List FQ)) :
    (meanCols rows).length = (rows.headD []).length := by
  simp [meanCols]

/-- Length of a pointwise matrix mean. -/
theorem meanMats_length (mats : List (List (List FQ))) :
    (meanMats mats).length = (mats.headD []).length := by
  simp [meanMats]

/-- Entry of a chopped axis in terms of the original list. -/
theorem chopAxis_getD (b : ℕ) (l : List α) (i : ℕ) (d : α)
    (hi : i < l.length / b * b) :
    (chopAxis b l).getD i d =
      l.getD ((l.length - l.length / b * b) / 2 + i) d := by
  unfold chopAxis
  have h2 : (l.length - l.length / b * b + 1) / 2
      + (l.length - l.length / b * b) / 2 = l.length - l.length / b * b := by
    omega
  have h3 := Nat.div_mul_le_self l.length b
  rw [show l.length - (l.length - l.length / b * b + 1) / 2
      - (l.length - l.length / b * b) / 2 = l.length / b * b from by omega]
  exact take_drop_getD l _ _ i d hi (by omega)

/-- Chunk `j` of a chopped axis as a window into the original list. -/
theorem chopAxis_window (b : ℕ) (l : List α) (j : ℕ) (hj : j < l.length / b) :
    ((chopAxis b l).drop (j * b)).take b
      = (l.drop ((l.length - l.length / b * b) / 2 + j * b)).take b := by
  have h3 := Nat.div_mul_le_self l.length b
  have hM : l.length - (l.length - l.length / b * b + 1) / 2
      - (l.length - l.length / b * b) / 2 = l.length / b * b := by
    have h2 : (l.length - l.length / b * b + 1) / 2
        + (l.length - l.length / b * b) / 2 = l.length - l.length / b * b := by
      omega
    omega
  unfold chopAxis
  rw [hM, List.drop_take, List.take_take]
  have h1 : (j + 1) * b ≤ l.length / b * b := Nat.mul_le_mul_right b (by omega)
  have h4 : (j + 1) * b = j * b + b := by ring
  rw [show min b (l.length / b * b - j * b) = b from by omega,
    List.drop_drop]

/-- Length of the single-axis binning of Claim C9. -/
theorem binAxis1_length (b : ℕ) (hb : 0 < b) (l : List FQ) :
    (binAxis1 b l).length = l.length / b := by
  simp [binAxis1, chunksOf_length, chopAxis_length, Nat.mul_div_cancel _ hb]

/-- Length of the y-axis binning. -/
theorem binAxisY_length (b : ℕ) (hb : 0 < b) (m : List (List FQ)) :
    (binAxisY b m).length = m.length / b := by
  simp [binAxisY, chunksOf_length, chopAxis_length, Nat.mul_div_cancel _ hb]

/-- Row `j` of the y-axis binning: pointwise mean of one window of rows. -/
theorem binAxisY_getD (b : ℕ) (hb : 0 < b) (m : List (List FQ)) (j : ℕ)
    (hj : j < m.length / b) :
    (binAxisY b m).getD j []
      = meanCols (((chopAxis b m).drop (j * b)).take b) := by
  rw [binAxisY]
  have hj' : j < (chopAxis b m).length / b := by
    rw [chopAxis_length, Nat.mul_div_cancel _ hb]; exact hj
  rw [getD_map_lt meanCols _ j (by simpa [chunksOf_length] using hj') [] _,
    chunksOf_getD b _ j hj']

/-- Matrix `i` of the z-axis binning: pointwise mean of one window of
matrices. -/
theorem binAxisZ_getD (b : ℕ) (hb : 0 < b) (t : List (List (List FQ)))
    (i : ℕ) (hi : i < t.length / b) :
    (binAxisZ b t).getD i []
      = meanMats (((chopAxis b t).drop (i * b)).take b) := by
  rw [binAxisZ]
  have hi' : i < (chopAxis b t).length / b := by
    rw [chopAxis_length, Nat.mul_div_cancel _ hb]; exact hi
  rw [getD_map_lt meanMats _ i (by simpa [chunksOf_length] using hi') [] _,
    chunksOf_getD b _ i hi']

/-- Head of chunk `i` of a chopped axis, as an entry of the original list. -/
theorem chop_window_headD (b : ℕ) (t : List α) (d : α) (i : ℕ) (hb : 0 < b)
    (hi : i < t.length / b) :
    (((chopAxis b t).drop (i * b)).take b).headD d
      = t.getD ((t.length - t.length / b * b) / 2 + i * b) d := by
  have h1 : (i + 1) * b ≤ t.length / b * b := Nat.mul_le_mul_right b (by omega)
  have h4 : (i + 1) * b = i * b + b := by ring
  rw [headD_eq_getD,
    take_drop_getD (chopAxis b t) (i * b) b 0 d hb
      (by rw [chopAxis_length]; omega),
    Nat.add_zero, chopAxis_getD b t (i * b) d (by omega)]

/-- Witness for C6 at a concrete wave (setpoint lengths 1, 2, 1, 2). -/
theorem awg_wave_masks_correct_witness :
    ((get_single_wave_masks [1, 2, 1, 2]).getD 1 []).getD 2 none = some 1 := by
  have h := awg_wave_masks_correct [1, 2, 1, 2] 3 2
  have h2 := h.2.2.1 1 (by norm_num) 2 (by norm_num)
  rw [h2]
  norm_num

end PyDat

namespace PyDat

/-- Claim C9: for 1-D input of length `n` and bin `b` with `1 ≤ b ≤ n`,
`bin_data_new` returns `floor(n/b)` values, value `j` being the arithmetic
mean of `b` consecutive input elements after `floor(r/2)` leading and
`ceil(r/2)` trailing elements are discarded (`r = n mod b`); 2-D and 3-D
input keeps its number of dimensions with each axis binned the same way by
`bin_x`, `bin_y`, `bin_z` respectively. -/
theorem bin_data_new_correct (l : List FQ) (n b : ℕ)
    (hn : l.length = n) (hb : 0 < b) (hbn : b ≤ n)
    (m2 : List (List FQ)) (bx bq bz : ℕ)
    (hbx : 0 < bx) (hbq : 0 < bq) (hbz : 0 < bz)
    (data : List (List (List FQ))) (s0 s1 s2 : ℕ)
    (hs0 : data.length = s0)
    (hs1 : ∀ m ∈ data, m.length = s1)
    (hs2 : ∀ m ∈ data, ∀ r ∈ m, r.length = s2) :
    (bin_data_new1 l b).length = n / b ∧
    (∀ j < n / b, ∀ vs : List ℚ,
      (l.drop (n % b / 2 + j * b)).take b = vs.map some →
      (bin_data_new1 l b).getD j none = some (vs.sum / (b : ℚ))) ∧
    bin_data_new2 m2 bx bq = binAxisY bq (m2.map (binAxis1 bx)) ∧
    bin_data_new3 data bx bq bz =
      binAxisZ bz (data.map (fun m => binAxisY bq (m.map (binAxis1 bx)))) ∧
    (bin_data_new3 data bx bq bz).length = s0 / bz ∧
    (∀ i < s0 / bz,
      ((bin_data_new3 data bx bq bz).getD i []).length = s1 / bq) ∧
    (∀ i < s0 / bz, ∀ j < s1 / bq,
      (((bin_data_new3 data bx bq bz).getD i []).getD j []).length
        = s2 / bx) := by
  have hmod : l.length - l.length / b * b = n % b := by
    have h1 := Nat.div_add_mod' n b
    rw [hn]
    omega
  -- abbreviations for the 3-D part
  set g : List (List FQ) → List (List FQ) :=
    fun m => binAxisY bq (m.map (binAxis1 bx)) with hg
  have hYlen : (data.map g).length = s0 := by simp [hs0]
  have hglen : ∀ m ∈ data, (g m).length = s1 / bq := by
    intro m hm
    rw [hg]
    simp only [binAxisY_length bq hbq, List.length_map]
    rw [hs1 m hm]
  -- matrix i of the binned 3-D output
  have hmat : ∀ i < s0 / bz,
      (binAxisZ bz (data.map g)).getD i []
        = meanMats (((chopAxis bz (data.map g)).drop (i * bz)).take bz) := by
    intro i hi
    exact binAxisZ_getD bz hbz _ i (by rw [hYlen]; exact hi)
  have hq : ∀ i < s0 / bz,
      (s0 - s0 / bz * bz) / 2 + i * bz < s0 := by
    intro i hi
    have h1 : (i + 1) * bz ≤ s0 / bz * bz := Nat.mul_le_mul_right bz (by omega)
    have h4 : (i + 1) * bz = i * bz + bz := by ring
    have h5 := Nat.div_mul_le_self s0 bz
    omega
  have hhead : ∀ i < s0 / bz,
      (((chopAxis bz (data.map g)).drop (i * bz)).take bz).headD []
        = g (data.getD ((s0 - s0 / bz * bz) / 2 + i * bz) []) := by
    intro i hi
    rw [chop_window_headD bz _ [] i hbz (by rw [hYlen]; exact hi), hYlen,
      getD_map_lt g data _ (by rw [hs0]; exact hq i hi) [] _]
  have hheadlen : ∀ i < s0 / bz,
      ((((chopAxis bz (data.map g)).drop (i * bz)).take bz).headD []).length
        = s1 / bq := by
    intro i hi
    rw [hhead i hi]
    exact hglen _ (getD_mem data _ [] (by rw [hs0]; exact hq i hi))
  refine ⟨?_, ?_, bin_data_new2_eq m2 bx bq, bin_data_new3_axes data bx bq bz,
    ?_, ?_, ?_⟩
  · rw [bin_data_new1_eq, binAxis1]
    simp [chunksOf_length, chopAxis_length, Nat.mul_div_cancel _ hb, hn]
  · intro j hj vs hvs
    rw [bin_data_new1_eq, binAxis1]
    have hj' : j < (chopAxis b l).length / b := by
      rw [chopAxis_length, Nat.mul_div_cancel _ hb, hn]; exact hj
    rw [getD_map_lt fmean _ j (by simpa [chunksOf_length] using hj') [] _,
      chunksOf_getD b _ j hj',
      chopAxis_window b l j (by rw [hn]; exact hj), hmod, hvs]
    have hwinlen : ((l.drop (n % b / 2 + j * b)).take b).length = b := by
      have h1 : (j + 1) * b ≤ n / b * b := Nat.mul_le_mul_right b (by omega)
      have h4 : (j + 1) * b = j * b + b := by ring
      have h5 := Nat.div_mul_le_self n b
      have h6 : n % b < b := Nat.mod_lt _ hb
      have h7 := Nat.div_add_mod' n b
      simp only [List.length_take, List.length_drop, hn]
      omega
    have hvl : vs.length = b := by
      have := congrArg List.length hvs
      simpa [hwinlen] using this.symm
    rw [fmean_map_some vs (by intro hemp; rw [hemp] at hvl; simp at hvl; omega),
      hvl]
  · rw [bin_data_new3_axes]
    simp [binAxisZ, chunksOf_length, chopAxis_length,
      Nat.mul_div_cancel _ hbz, hYlen]
  · intro i hi
    rw [bin_data_new3_axes, hmat i hi, meanMats_length]
    exact hheadlen i hi
  · intro i hi j hj
    rw [bin_data_new3_axes, hmat i hi]
    -- row j of the pointwise matrix mean
    have hjW : j < ((((chopAxis bz (data.map g)).drop (i * bz)).take
        bz).headD []).length := by
      rw [hheadlen i hi]; exact hj
    rw [meanMats, getD_range_map _ _ j hjW []]
    rw [meanCols_length]
    have hmapheadD :
        (((((chopAxis bz (data.map g)).drop (i * bz)).take bz).map
            (fun mm => mm.getD j [])).headD [])
          = ((((chopAxis bz (data.map g)).drop (i * bz)).take
              bz).headD []).getD j [] := by
      have := headD_map_comm (fun mm => mm.getD j [])
        (((chopAxis bz (data.map g)).drop (i * bz)).take bz) []
      simpa using this
    rw [hmapheadD, hhead i hi]
    -- row j of g m for the matrix m at the head of the window
    set m0 : List (List FQ) := data.getD ((s0 - s0 / bz * bz) / 2 + i * bz) []
      with hm0
    have hm0mem : m0 ∈ data := getD_mem data _ [] (by rw [hs0]; exact hq i hi)
    have hm0len : m0.length = s1 := hs1 m0 hm0mem
    have hRlen : (m0.map (binAxis1 bx)).length = s1 := by simp [hm0len]
    have hjR : j < (m0.map (binAxis1 bx)).length / bq := by
      rw [hRlen]; exact hj
    rw [hg]
    rw [binAxisY_getD bq hbq _ j hjR, meanCols_length,
      chop_window_headD bq _ [] j hbq hjR, hRlen]
    have hp : (s1 - s1 / bq * bq) / 2 + j * bq < s1 := by
      have h1 : (j + 1) * bq ≤ s1 / bq * bq := Nat.mul_le_mul_right bq (by omega)
      have h4 : (j + 1) * bq = j * bq + bq := by ring
      have h5 := Nat.div_mul_le_self s1 bq
      omega
    rw [getD_map_lt (binAxis1 bx) m0 _ (by rw [hm0len]; exact hp) [] _]
    rw [binAxis1_length bx hbx]
    rw [hs2 m0 hm0mem _ (getD_mem m0 _ [] (by rw [hm0len]; exact hp))]

/-- Witness for C9 at a concrete input: binning [1, 2, 3] with bin 2 keeps
one value, the mean of elements 1 and 2. -/
theorem bin_data_new_correct_witness :
    (bin_data_new1 [some 1, some 2, some 3] 2).getD 0 none
      = some ((((1 : ℚ) + 2 + 0)) / (2 : ℚ)) := by
  have h := bin_data_new_correct [some 1, some 2, some 3] 3 2 (by simp)
    (by norm_num) (by norm_num) [[some 1]] 1 1 1 (by norm_num) (by norm_num)
    (by norm_num) [[[some 1]]] 1 1 1 (by simp)
    (by intro m hm; fin_cases hm; simp)
    (by intro m hm r hr; fin_cases hm; fin_cases hr; simp)
  have h2 := h.2.1 0 (by norm_num) [1, 2] (by norm_num)
  simpa using h2

end PyDat

namespace PyDat

/-- Parameters whose name differs from the edited one are untouched by one
edit step. -/
theorem editStep_lookup_ne (ps : Parameters) (n k : String) (hne : k ≠ n)
    (v : Option ℚ) (y : Option Bool) (mn mx : Option ℚ) :
    (editStep ps n v y mn mx).lookup k = ps.lookup k := by
  induction ps with
  | nil => rfl
  | cons kv t ih =>
    obtain ⟨k0, p0⟩ := kv
    simp only [editStep, List.map_cons] at ih ⊢
    by_cases h0 : k0 = n
    · rw [if_pos h0]
      have hk : (k == k0) = false := beq_eq_false_iff_ne.mpr
        (fun h => hne (h0 ▸ h))
      simp only [List.lookup, hk]
      exact ih
    · rw [if_neg h0]
      rcases Bool.eq_false_or_eq_true (k == k0) with hk | hk
      · simp only [List.lookup, hk]
      · simp only [List.lookup, hk]
        exact ih

/-- The edited parameter's slots after one edit step: given values are
written, `None` slots keep the original. -/
theorem editStep_lookup_eq (ps : Parameters) (n : String) (p : LMParam)
    (hp : ps.lookup n = some p) (v : Option ℚ) (y : Option Bool)
    (mn mx : Option ℚ) :
    (editStep ps n v y mn mx).lookup n =
      some ⟨v.getD p.value, y.getD p.vary, mn.getD p.min, mx.getD p.max⟩ := by
  induction ps with
  | nil => simp [List.lookup] at hp
  | cons kv t ih =>
    obtain ⟨k0, p0⟩ := kv
    simp only [editStep, List.map_cons] at ih ⊢
    by_cases h0 : n = k0
    · subst h0
      rw [if_pos rfl]
      simp only [List.lookup, beq_self_eq_true] at hp ⊢
      have hp0 : p0 = p := by
        injection hp
      subst hp0
      rfl
    · have h0' : ¬(k0 = n) := fun h => h0 h.symm
      rw [if_neg h0']
      have hk : (n == k0) = false := beq_eq_false_iff_ne.mpr h0
      simp only [List.lookup, hk] at hp ⊢
      exact ih hp

end PyDat

namespace PyDat

/-- Claim C10: `edit_params` works on a deep copy (pure in this embedding,
so the caller's object is untouched), and in the returned copy every
parameter whose name is not among `param_name` keeps its whole entry, while
for an edited parameter every slot that was given `None` keeps its original
value.  Parameter names in `lm.Parameters` are unique, which `names.Nodup`
records for the edited names. -/
theorem edit_params_frame (ps : Parameters) (names : List String)
    (values : List (Option ℚ)) (varys : List (Option Bool))
    (minVals maxVals : List (Option ℚ)) (hnd : names.Nodup) :
    (∀ k, k ∉ names →
      (edit_params ps names values varys minVals maxVals).lookup k
        = ps.lookup k) ∧
    (∀ i, i < names.length → ∀ p p' : LMParam,
      ps.lookup (names.getD i "") = some p →
      (edit_params ps names values varys minVals maxVals).lookup
          (names.getD i "") = some p' →
      (values.getD i none = none → p'.value = p.value) ∧
      (varys.getD i none = none → p'.vary = p.vary) ∧
      (minVals.getD i none = none → p'.min = p.min) ∧
      (maxVals.getD i none = none → p'.max = p.max)) := by
  revert hnd
  induction names generalizing ps values varys minVals maxVals with
  | nil =>
    intro _
    refine ⟨fun k _ => rfl, fun i hi => by simp at hi⟩
  | cons n ns ih =>
    intro hnd
    obtain ⟨hn_nin, hnd'⟩ := List.nodup_cons.mp hnd
    -- degenerate truncations: the zip loop does not run at all
    rcases values with _ | ⟨v, vs⟩
    · refine ⟨fun k _ => rfl, fun i hi p p' hp hp' => ?_⟩
      have hpp : p = p' := by
        have hp2 : List.lookup ((n :: ns).getD i "") ps = some p' := hp'
        rw [hp] at hp2
        injection hp2
      subst hpp
      exact ⟨fun _ => rfl, fun _ => rfl, fun _ => rfl, fun _ => rfl⟩
    rcases varys with _ | ⟨y, ys⟩
    · refine ⟨fun k _ => rfl, fun i hi p p' hp hp' => ?_⟩
      have hpp : p = p' := by
        have hp2 : List.lookup ((n :: ns).getD i "") ps = some p' := hp'
        rw [hp] at hp2
        injection hp2
      subst hpp
      exact ⟨fun _ => rfl, fun _ => rfl, fun _ => rfl, fun _ => rfl⟩
    rcases minVals with _ | ⟨mn, mns⟩
    · refine ⟨fun k _ => rfl, fun i hi p p' hp hp' => ?_⟩
      have hpp : p = p' := by
        have hp2 : List.lookup ((n :: ns).getD i "") ps = some p' := hp'
        rw [hp] at hp2
        injection hp2
      subst hpp
      exact ⟨fun _ => rfl, fun _ => rfl, fun _ => rfl, fun _ => rfl⟩
    rcases maxVals with _ | ⟨mx, mxs⟩
    · refine ⟨fun k _ => rfl, fun i hi p p' hp hp' => ?_⟩
      have hpp : p = p' := by
        have hp2 : List.lookup ((n :: ns).getD i "") ps = some p' := hp'
        rw [hp] at hp2
        injection hp2
      subst hpp
      exact ⟨fun _ => rfl, fun _ => rfl, fun _ => rfl, fun _ => rfl⟩
    -- main step: one edit of `n`, then the loop continues on `ns`
    have hrec : edit_params ps (n :: ns) (v :: vs) (y :: ys) (mn :: mns)
        (mx :: mxs) = edit_params (editStep ps n v y mn mx) ns vs ys mns mxs :=
      rfl
    obtain ⟨ih1, ih2⟩ := ih (editStep ps n v y mn mx) vs ys mns mxs hnd'
    constructor
    · intro k hk
      have hk1 : k ≠ n := fun h => hk (h ▸ List.mem_cons_self n ns)
      have hk2 : k ∉ ns := fun h => hk (List.mem_cons_of_mem n h)
      rw [hrec, ih1 k hk2, editStep_lookup_ne ps n k hk1]
    · intro i hi p p' hp hp'
      rw [hrec] at hp'
      cases i with
      | zero =>
        simp only [List.getD_cons_zero] at hp hp'
        rw [ih1 n hn_nin, editStep_lookup_eq ps n p hp] at hp'
        have hup : p' = ⟨v.getD p.value, y.getD p.vary, mn.getD p.min,
            mx.getD p.max⟩ := by
          injection hp'.symm
        subst hup
        refine ⟨fun hv => ?_, fun hy => ?_, fun hmn => ?_, fun hmx => ?_⟩
        · simp only [List.getD_cons_zero] at hv
          rw [hv]
          rfl
        · simp only [List.getD_cons_zero] at hy
          rw [hy]
          rfl
        · simp only [List.getD_cons_zero] at hmn
          rw [hmn]
          rfl
        · simp only [List.getD_cons_zero] at hmx
          rw [hmx]
          rfl
      | succ i' =>
        simp only [List.getD_cons_succ] at hp hp' ⊢
        have hi' : i' < ns.length := by
          simp only [List.length_cons] at hi
          omega
        have hmem : ns.getD i' "" ∈ ns := getD_mem ns i' "" hi'
        have hneq : ns.getD i' "" ≠ n := fun h => hn_nin (h ▸ hmem)
        have hps' : (editStep ps n v y mn mx).lookup (ns.getD i' "")
            = some p := by
          rw [editStep_lookup_ne ps n _ hneq, hp]
        exact ih2 i' hi' p p' hps' hp'

/-- Witness for C10 at a concrete input: editing parameter a (new value 5,
new max 7, `None` for vary and min) leaves parameter b untouched and keeps
the `None`-given slots of a. -/
theorem edit_params_frame_witness :
    (edit_params [("a", ⟨1, true, 0, 10⟩), ("b", ⟨2, false, -1, 1⟩)]
        ["a"] [some 5] [none] [none] [some 7]).lookup "b"
      = some ⟨2, false, -1, 1⟩ ∧
    (⟨5, true, 0, 7⟩ : LMParam).vary = (⟨1, true, 0, 10⟩ : LMParam).vary := by
  have h := edit_params_frame
    [("a", ⟨1, true, 0, 10⟩), ("b", ⟨2, false, -1, 1⟩)]
    ["a"] [some 5] [none] [none] [some 7] (by simp)
  constructor
  · rw [h.1 "b" (by simp)]
    rfl
  · exact (h.2 0 (by simp) ⟨1, true, 0, 10⟩ ⟨5, true, 0, 7⟩ rfl rfl).2.1 rfl

end PyDat

namespace PyDat

/-- Counterexample to Claim C3 as stated: a `FitInfo` whose `best_values`
disagree with its params (reachable in the source: `FitInfo.edit_params`
replaces `params` without touching `best_values`) does not round-trip its
`best_values`, because `init_from_hdf` rebuilds them from the loaded
parameter values. -/
theorem fitinfo_roundtrip_counterexample :
    ¬ ((FitInfo.from_hdf
        (FitInfo.save_to_hdf
          { params := some [("x", ⟨1, 0, -5, 5, true, none⟩)],
            func_name := some "i_sense", func_code := some "c",
            fit_report := some "r",
            best_values := [("x", 2)], init_values := [("x", 0)] }
          [] "fit") "fit").map FitInfo.best_values
      = some [("x", 2)]) := by
  decide

/-- Claim C3 (amended): for every `FitInfo` with non-`None` params whose
`best_values` agree with its params' values (as holds for any instance
initialized from a fit or from file), saving and re-loading returns a
`FitInfo` with equal `params`, `func_name`, `func_code`, `fit_report` and
`best_values`; in general `best_values` are recomputed from the saved
params on load. -/
theorem fitinfo_roundtrip (fi : FitInfo) (parent : HStore) (name : String)
    (ps : ParamsMap) (hps : fi.params = some ps)
    (hbv : fi.best_values = ps.map (fun kv => (kv.1, kv.2.value))) :
    ((FitInfo.from_hdf (fi.save_to_hdf parent name) name).map FitInfo.params
      = some fi.params) ∧
    ((FitInfo.from_hdf (fi.save_to_hdf parent name) name).map FitInfo.func_name
      = some fi.func_name) ∧
    ((FitInfo.from_hdf (fi.save_to_hdf parent name) name).map FitInfo.func_code
      = some fi.func_code) ∧
    ((FitInfo.from_hdf (fi.save_to_hdf parent name) name).map FitInfo.fit_report
      = some fi.fit_report) ∧
    ((FitInfo.from_hdf (fi.save_to_hdf parent name) name).map
        FitInfo.best_values
      = some fi.best_values) := by
  have hsave : fi.save_to_hdf parent name
      = (name, ⟨ps, fi.func_name, fi.func_code, fi.fit_report⟩) :: parent := by
    rw [FitInfo.save_to_hdf, hps]
  have hload : FitInfo.from_hdf (fi.save_to_hdf parent name) name
      = some (FitInfo.init_from_hdf
          ⟨ps, fi.func_name, fi.func_code, fi.fit_report⟩) := by
    rw [hsave, FitInfo.from_hdf]
    simp [List.lookup]
  rw [hload]
  refine ⟨?_, rfl, rfl, rfl, ?_⟩
  · rw [hps]
    rfl
  · rw [FitInfo.init_from_hdf]
    rw [hbv]
    rfl

/-- Witness for C3 at a concrete consistent `FitInfo`. -/
theorem fitinfo_roundtrip_witness :
    (FitInfo.from_hdf
        (FitInfo.save_to_hdf
          { params := some [("x", ⟨1, 0, -5, 5, true, none⟩)],
            func_name := some "i_sense", func_code := some "c",
            fit_report := some "r",
            best_values := [("x", 1)], init_values := [("x", 0)] }
          [] "fit") "fit").map FitInfo.best_values
      = some [("x", 1)] := by
  have h := fitinfo_roundtrip
    { params := some [("x", ⟨1, 0, -5, 5, true, none⟩)],
      func_name := some "i_sense", func_code := some "c",
      fit_report := some "r",
      best_values := [("x", 1)], init_values := [("x", 0)] }
    [] "fit" [("x", ⟨1, 0, -5, 5, true, none⟩)] rfl rfl
  exact h.2.2.2.2

/-- The value written by `cache_replace` is found under its key. -/
theorem cacheReplace_lookup (c : List (String × List FQ)) (k : String)
    (v : List FQ) :
    (cache_replace c k v).lookup k = some v := by
  induction c with
  | nil => simp [cache_replace, List.lookup]
  | cons kv t ih =>
    obtain ⟨k0, v0⟩ := kv
    by_cases h0 : k0 = k
    · have hany : ((k0, v0) :: t).any (fun kv => kv.1 == k) = true := by
        simp [h0]
      rw [cache_replace, if_pos hany]
      simp only [List.map_cons, if_pos h0]
      simp [List.lookup]
    · have hk : (k == k0) = false :=
        beq_eq_false_iff_ne.mpr (fun h => h0 h.symm)
      cases hany : t.any (fun kv => kv.1 == k) with
      | true =>
        have hanyc : ((k0, v0) :: t).any (fun kv => kv.1 == k) = true := by
          simp [List.any_cons, hany]
        rw [cache_replace, if_pos hanyc]
        simp only [List.map_cons, if_neg h0]
        simp only [List.lookup, hk]
        rw [cache_replace, if_pos hany] at ih
        exact ih
      | false =>
        have hanyc : ((k0, v0) :: t).any (fun kv => kv.1 == k) = false := by
          simp [List.any_cons, hany, h0]
        rw [cache_replace, if_neg (by simp [hanyc])]
        simp only [List.cons_append]
        simp only [List.lookup, hk]
        rw [cache_replace, if_neg (by simp [hany])] at ih
        exact ih

/-- A key survives at the end of a list whose earlier part has it filtered
out (the `move_to_end` shape of the `MyLRU` cache after a hit). -/
theorem lookup_filter_ne_append (c : List (String × List FQ)) (k : String)
    (v : List FQ) :
    ((c.filter (fun kv => kv.1 != k)) ++ [(k, v)]).lookup k = some v := by
  induction c with
  | nil => simp [List.lookup]
  | cons kv t ih =>
    obtain ⟨k0, v0⟩ := kv
    by_cases h0 : k0 = k
    · simpa [List.filter_cons, h0] using ih
    · have hk : (k == k0) = false :=
        beq_eq_false_iff_ne.mpr (fun h => h0 h.symm)
      have hkeep : ((k0, v0).1 != k) = true := by
        simp [h0]
      simp only [List.filter_cons, hkeep, if_pos, List.cons_append]
      simp only [List.lookup, hk]
      exact ih

end PyDat

namespace PyDat

/-- Claim C4: after `set_data key value`, the value is in the HDF Data group
and in `get_data`'s cache; `get_data key` returns it from the cache without
reading the file, and a second `get_data` with no intervening write again
returns the cached value without a file read. -/
theorem fitting_attr_cache_correct (s : FAState) (k : String) (v : List FQ) :
    (set_data s k v).store.lookup k = some v ∧
    (set_data s k v).cache.lookup k = some v ∧
    (get_data (set_data s k v) k).1 = some v ∧
    (get_data (set_data s k v) k).2.reads = (set_data s k v).reads ∧
    (get_data ((get_data (set_data s k v) k).2) k).1 = some v ∧
    (get_data ((get_data (set_data s k v) k).2) k).2.reads
      = (set_data s k v).reads := by
  have hstore : (set_data s k v).store.lookup k = some v := by
    simp [set_data, List.lookup]
  have hcache : (set_data s k v).cache.lookup k = some v :=
    cacheReplace_lookup s.cache k v
  have hget1 : get_data (set_data s k v) k
      = (some v, { set_data s k v with
          cache := ((set_data s k v).cache.filter (fun kv => kv.1 != k))
            ++ [(k, v)] }) := by
    rw [get_data, hcache]
  have hcache2 : (get_data (set_data s k v) k).2.cache.lookup k = some v := by
    rw [hget1]
    exact lookup_filter_ne_append (set_data s k v).cache k v
  have hget2 : (get_data ((get_data (set_data s k v) k).2) k).1 = some v ∧
      (get_data ((get_data (set_data s k v) k).2) k).2.reads
        = (get_data (set_data s k v) k).2.reads := by
    rw [get_data, hcache2]
    exact ⟨rfl, rfl⟩
  refine ⟨hstore, hcache, by rw [hget1], by rw [hget1], hget2.1, ?_⟩
  rw [hget2.2, hget1]

end PyDat

namespace PyDat

/-- A successful lookup means the key is among the mapping's keys. -/
theorem lookup_some_mem_keys {α : Type} (l : List (String × α)) (k : String)
    (v : α) (h : l.lookup k = some v) : k ∈ l.map Prod.fst := by
  induction l with
  | nil => simp [List.lookup] at h
  | cons kv t ih =>
    obtain ⟨k0, v0⟩ := kv
    rcases Bool.eq_false_or_eq_true (k == k0) with hk | hk
    · have : k = k0 := beq_iff_eq.mp hk
      simp [this]
    · simp only [List.lookup, hk] at h
      exact List.mem_cons_of_mem _ (ih h)

/-- A successful lookup is a member. -/
theorem lookup_mem {α : Type} (l : List (String × α)) (k : String) (v : α)
    (h : l.lookup k = some v) : (k, v) ∈ l := by
  induction l with
  | nil => simp [List.lookup] at h
  | cons kv t ih =>
    obtain ⟨k0, v0⟩ := kv
    rcases Bool.eq_false_or_eq_true (k == k0) with hk | hk
    · have hk' : k = k0 := beq_iff_eq.mp hk
      simp only [List.lookup, hk] at h
      injection h with h'
      subst hk'
      subst h'
      exact List.mem_cons_self _ _
    · simp only [List.lookup, hk] at h
      exact List.mem_cons_of_mem _ (ih h)

/-- Filtering a key out of a mapping makes its lookup fail. -/
theorem lookup_filter_bne_self {α : Type} (l : List (String × α))
    (k : String) :
    (l.filter (fun kv => kv.1 != k)).lookup k = none := by
  induction l with
  | nil => simp
  | cons kv t ih =>
    obtain ⟨k0, v0⟩ := kv
    by_cases h0 : k0 = k
    · simpa [List.filter_cons, h0] using ih
    · have hkeep : ((k0, v0).1 != k) = true := by simp [h0]
      have hk : (k == k0) = false :=
        beq_eq_false_iff_ne.mpr (fun h => h0 h.symm)
      simp only [List.filter_cons, hkeep, if_pos]
      simp only [List.lookup, hk]
      exact ih

/-- An element filtered out by inequality with itself is gone. -/
theorem not_mem_filter_bne_self (l : List String) (k : String) :
    k ∉ l.filter (fun p => p != k) := by
  intro h
  have := List.of_mem_filter h
  simp at this

/-- Claim C7: with a saved Output under `name` (in-memory copy, if any,
matching the HDF one) and `overwrite=False`, `get_Outputs` returns the
saved Output for every `inputs`, `process_params` and compute continuation
(the arguments are ignored and nothing is computed); and with
`existing_only=True` and `name` not among the saved Outputs it raises
NotFoundInHdfError before computing or saving anything, again for every
continuation. -/
theorem get_Outputs_cached (st : SEState) (name : String) (out : Output)
    (hhdf : st.hdfOutputs.lookup name = some out)
    (hmem : st.memOutputs.lookup name = none
      ∨ st.memOutputs.lookup name = some out) :
    (∀ inputs pp compute,
      (get_Outputs st (some name) inputs pp false false compute).map Prod.fst
        = Except.ok out) ∧
    (∀ inputs pp compute inputs2 pp2 compute2,
      get_Outputs st (some name) inputs pp false false compute
        = get_Outputs st (some name) inputs2 pp2 false false compute2) ∧
    (∀ (name2 : String), name2 ∉ Output_names st →
      ∀ inputs pp compute (ow : Bool),
      get_Outputs st (some name2) inputs pp ow true compute
        = .error "NotFoundInHdfError") := by
  have hkey : name ∈ Output_names st :=
    lookup_some_mem_keys st.hdfOutputs name out hhdf
  have hsaved : (get_saved_Outputs st name).1 = some out := by
    rcases hmem with hm | hm
    · rw [get_saved_Outputs, hm, hhdf]
    · rw [get_saved_Outputs, hm]
  obtain ⟨o1, st2, hso2⟩ : ∃ o1 st2, get_saved_Outputs st name = (o1, st2) :=
    ⟨(get_saved_Outputs st name).1, (get_saved_Outputs st name).2, rfl⟩
  have ho1 : o1 = some out := by
    rw [hso2] at hsaved
    exact hsaved
  subst ho1
  have hred : ∀ inputs pp compute,
      get_Outputs st (some name) inputs pp false false compute
        = Except.ok (out, st2) := by
    intro inputs pp compute
    simp only [get_Outputs, Option.getD_some]
    rw [if_pos (show (True ∧ name ∈ Output_names st)
      from ⟨trivial, hkey⟩), hso2]
  refine ⟨?_, ?_, ?_⟩
  · intro inputs pp compute
    rw [hred inputs pp compute]
    rfl
  · intro inputs pp compute inputs2 pp2 compute2
    rw [hred inputs pp compute, hred inputs2 pp2 compute2]
  · intro name2 hn2 inputs pp compute ow
    simp only [get_Outputs, Option.getD_some]
    rw [if_neg (fun h => hn2 h.2)]
    rfl

/-- Witness for C7 at a concrete state with one saved Output. -/
theorem get_Outputs_cached_witness :
    (get_Outputs ⟨[("default", {})], []⟩ (some "default") none none
        false false (fun _ _ _ _ _ => .error "unused")).map Prod.fst
      = Except.ok ({} : Output) := by
  have h := get_Outputs_cached ⟨[("default", {})], []⟩ "default" {}
    rfl (Or.inl rfl)
  exact h.1 none none _

end PyDat

namespace PyDat

/-- Claim C8: with `overwrite=False` a second `get_dat` for the same
(datnum, datname) returns the identical cached DatHDF instance and leaves
the handler state unchanged; with `overwrite=True` the dat file is deleted,
the cache entry is dropped, and a freshly built instance is returned and
cached (so it differs from every previously cached instance). -/
theorem get_dat_correct (st : HState) (dn : String) (num : ℕ)
    (name : String) :
    (∀ d st1, get_dat st dn num name false = .ok (d, st1) →
      get_dat st1 dn num name false = .ok (d, st1)) ∧
    (exp_path num ∈ st.expFiles →
      get_dat st dn num name true = .ok (st.nextId,
        { openDats := (full_id dn num name, st.nextId) ::
            st.openDats.filter (fun kv => kv.1 != full_id dn num name)
          datFiles := datHDF_path num name ::
            st.datFiles.filter (fun p => p != datHDF_path num name)
          expFiles := st.expFiles
          nextId := st.nextId + 1 })) ∧
    ((∀ kv ∈ st.openDats, kv.2 < st.nextId) →
      ∀ dOld, st.openDats.lookup (full_id dn num name) = some dOld →
        dOld ≠ st.nextId) := by
  refine ⟨?_, ?_, ?_⟩
  · intro d st1 h
    simp only [get_dat, if_neg (by simp : ¬(false = true))] at h ⊢
    rcases hl : st.openDats.lookup (full_id dn num name) with _ | d0
    · rw [hl] at h
      by_cases hf : datHDF_path num name ∈ st.datFiles
      · rw [if_pos hf] at h
        obtain ⟨h1, h2⟩ : st.nextId = d ∧ ({ st with
            openDats := (full_id dn num name, st.nextId) :: st.openDats
            nextId := st.nextId + 1 } : HState) = st1 := by
          simpa using h
        subst h1
        subst h2
        rw [show List.lookup (full_id dn num name)
            ((full_id dn num name, st.nextId) :: st.openDats)
            = some st.nextId from by simp [List.lookup]]
      · rw [if_neg hf] at h
        by_cases he : exp_path num ∈ st.expFiles
        · rw [if_pos he] at h
          obtain ⟨h1, h2⟩ : st.nextId = d ∧ ({ st with
              openDats := (full_id dn num name, st.nextId) :: st.openDats
              datFiles := datHDF_path num name :: st.datFiles
              nextId := st.nextId + 1 } : HState) = st1 := by
            simpa using h
          subst h1
          subst h2
          rw [show List.lookup (full_id dn num name)
              ((full_id dn num name, st.nextId) :: st.openDats)
              = some st.nextId from by simp [List.lookup]]
        · rw [if_neg he] at h
          simp at h
    · rw [hl] at h
      obtain ⟨h1, h2⟩ : d0 = d ∧ st = st1 := by
        simpa using h
      subst h1
      subst h2
      rw [hl]
  · intro hexp
    simp only [get_dat, if_true]
    rw [lookup_filter_bne_self st.openDats (full_id dn num name)]
    rw [if_neg (not_mem_filter_bne_self st.datFiles (datHDF_path num name))]
    rw [if_pos hexp]
  · intro hbound dOld hlook hne
    have hmem := lookup_mem st.openDats (full_id dn num name) dOld hlook
    have := hbound _ hmem
    simp only at this
    omega

/-- Witness for C8: in a handler state with one cached dat, `get_dat`
returns that cached instance and the unchanged state. -/
theorem get_dat_correct_witness :
    get_dat ⟨[("d:Dat1[base]", 0)], ["Dat1[base].h5"], ["exp1"], 1⟩
        "d" 1 "base" false
      = .ok (0, ⟨[("d:Dat1[base]", 0)], ["Dat1[base].h5"], ["exp1"], 1⟩) := by
  have h := (get_dat_correct ⟨[], [], ["exp1"], 0⟩ "d" 1 "base").1 0
    ⟨[("d:Dat1[base]", 0)], ["Dat1[base].h5"], ["exp1"], 1⟩ rfl
  exact h

end PyDat

namespace PyDat

/-- Multiplying by a NaN mask blanks every sample. -/
theorem zipWith_fmul_replicate_none (l : List FQ) (n : ℕ)
    (h : l.length = n) :
    List.zipWith fmul l (List.replicate n none) = List.replicate n none := by
  induction l generalizing n with
  | nil => subst h; rfl
  | cons a t ih =>
    cases n with
    | zero => simp at h
    | succ n' =>
      simp only [List.replicate_succ, List.zipWith_cons_cons]
      rw [ih n' (by simpa using h)]
      cases a <;> rfl

/-- Multiplying finite samples by a mask of ones keeps them unchanged. -/
theorem zipWith_fmul_replicate_one (l : List FQ) (n : ℕ)
    (h : l.length = n) (hfin : ∀ v ∈ l, v.isSome) :
    List.zipWith fmul l (List.replicate n (some 1)) = l := by
  induction l generalizing n with
  | nil => subst h; rfl
  | cons a t ih =>
    cases n with
    | zero => simp at h
    | succ n' =>
      obtain ⟨va, hva⟩ := Option.isSome_iff_exists.mp
        (hfin a (List.mem_cons_self a t))
      simp only [List.replicate_succ, List.zipWith_cons_cons]
      rw [ih n' (by simpa using h) (fun v hv => hfin v (List.mem_cons_of_mem a hv))]
      subst hva
      simp [fmul, Option.map₂]

/-- NaNs contribute nothing to the NaN-removal step. -/
theorem filterMap_id_replicate_none (n : ℕ) :
    (List.replicate n (none : FQ)).filterMap id = [] := by
  induction n with
  | zero => rfl
  | succ n' ih => simpa [List.replicate_succ]

/-- NaN removal from an all-finite list keeps every value (witnessed by
lifting back with `some`). -/
theorem filterMap_id_map_some (l : List FQ) (hfin : ∀ v ∈ l, v.isSome) :
    (l.filterMap id).map some = l := by
  induction l with
  | nil => rfl
  | cons a t ih =>
    obtain ⟨va, hva⟩ := Option.isSome_iff_exists.mp
      (hfin a (List.mem_cons_self a t))
    subst hva
    have ih2 := ih (fun v hv => hfin v (List.mem_cons_of_mem _ hv))
    rw [List.filterMap_cons_some (show id (some va) = some va from rfl),
      List.map_cons, ih2]

/-- Length of NaN removal from an all-finite list. -/
theorem filterMap_id_length (l : List FQ) (hfin : ∀ v ∈ l, v.isSome) :
    (l.filterMap id).length = l.length := by
  have := congrArg List.length (filterMap_id_map_some l hfin)
  simpa using this

/-- Splitting off one exact chunk. -/
theorem chunksOf_append_exact (n : ℕ) (hn : 0 < n) (x r : List α)
    (hx : x.length = n) :
    chunksOf n (x ++ r) = x :: chunksOf n r := by
  have hlen : (x ++ r).length = n + r.length := by simp [hx]
  have hdiv : (x ++ r).length / n = r.length / n + 1 := by
    rw [hlen, Nat.add_comm n r.length, Nat.add_div_right _ hn]
  rw [chunksOf, hdiv, List.range_succ_eq_map, List.map_cons]
  congr 1
  · simp only [Nat.zero_mul, List.drop_zero]
    rw [← hx, List.take_left]
  · rw [chunksOf, List.map_map]
    apply List.map_congr_left
    intro i hi
    simp only [Function.comp_apply]
    have hsm : Nat.succ i * n = x.length + i * n := by
      rw [hx, Nat.succ_eq_add_one]
      ring
    rw [hsm, List.drop_append]

/-- Regrouping a flattened uniform list of chunks recovers the chunks. -/
theorem chunksOf_flatten_uniform (n : ℕ) (hn : 0 < n) (ls : List (List α))
    (h : ∀ l ∈ ls, l.length = n) :
    chunksOf n ls.flatten = ls := by
  induction ls with
  | nil => simp [chunksOf]
  | cons l t ih =>
    rw [List.flatten_cons,
      chunksOf_append_exact n hn l t.flatten (h l (List.mem_cons_self l t)),
      ih (fun l2 hl2 => h l2 (List.mem_cons_of_mem l hl2))]

/-- Chunking splits over an append at a multiple of the chunk size. -/
theorem chunksOf_append_dvd (n : ℕ) (hn : 0 < n) (k : ℕ) :
    ∀ (x r : List α), x.length = k * n →
      chunksOf n (x ++ r) = chunksOf n x ++ chunksOf n r := by
  induction k with
  | zero =>
    intro x r hx
    have : x = [] := List.eq_nil_of_length_eq_zero (by simpa using hx)
    subst this
    simp [chunksOf]
  | succ k' ih =>
    intro x r hx
    have hxlen : n ≤ x.length := by
      rw [hx]
      calc n = 1 * n := (Nat.one_mul n).symm
        _ ≤ (k' + 1) * n := Nat.mul_le_mul_right n (by omega)
    have hsplit : x = x.take n ++ x.drop n := (List.take_append_drop n x).symm
    have htk : (x.take n).length = n := by
      simp [List.length_take]
      omega
    have hdr : (x.drop n).length = k' * n := by
      simp [List.length_drop, hx]
      have : (k' + 1) * n = k' * n + n := by ring
      omega
    calc chunksOf n (x ++ r)
        = chunksOf n (x.take n ++ (x.drop n ++ r)) := by
          rw [← List.append_assoc, ← hsplit]
      _ = x.take n :: chunksOf n (x.drop n ++ r) :=
          chunksOf_append_exact n hn _ _ htk
      _ = x.take n :: (chunksOf n (x.drop n) ++ chunksOf n r) := by
          rw [ih (x.drop n) r hdr]
      _ = (x.take n :: chunksOf n (x.drop n)) ++ chunksOf n r := rfl
      _ = chunksOf n (x.take n ++ x.drop n) ++ chunksOf n r := by
          rw [chunksOf_append_exact n hn _ _ htk]
      _ = chunksOf n x ++ chunksOf n r := by rw [← hsplit]

/-- Chunking a flattened list of uniform blocks whose length the chunk size
divides chunks each block separately. -/
theorem chunksOf_flatten_dvd (n m : ℕ) (hn : 0 < n) (hd : n ∣ m)
    (ls : List (List α)) (h : ∀ l ∈ ls, l.length = m) :
    chunksOf n ls.flatten = (ls.map (chunksOf n)).flatten := by
  induction ls with
  | nil => simp [chunksOf]
  | cons l t ih =>
    obtain ⟨k, hk⟩ := hd
    rw [List.flatten_cons,
      chunksOf_append_dvd n hn k l t.flatten
        (by rw [h l (List.mem_cons_self l t), hk]; ring),
      ih (fun l2 hl2 => h l2 (List.mem_cons_of_mem l hl2))]
    simp

end PyDat

namespace PyDat

/-- The block of setpoint `i` ends within the cycle. -/
theorem take_sum_add_getD_le (lens : List ℕ) (i : ℕ) (hi : i < lens.length) :
    (lens.take i).sum + lens.getD i 0 ≤ lens.sum := by
  have h1 : (lens.take (i + 1)).sum = (lens.take i).sum + lens[i] :=
    List.sum_take_succ lens i hi
  have h2 : lens.getD i 0 = lens[i] := List.getD_eq_getElem lens 0 hi
  have h3 : (lens.take (i + 1)).sum ≤ lens.sum := by
    conv_rhs => rw [← List.take_append_drop (i + 1) lens]
    rw [List.sum_append]
    omega
  omega

/-- Length of one single-cycle mask. -/
theorem single_mask_length (lens : List ℕ) (i : ℕ) (hi : i < lens.length) :
    ((get_single_wave_masks lens).getD i []).length = lens.sum := by
  rw [get_single_wave_masks, List.getD_eq_getElem _ _ (by simpa using hi)]
  simp [nanifyZeros, maskRowOnes]

/-- In-range entry of a replicate. -/
theorem getD_replicate_lt (n : ℕ) (a d : α) (p : ℕ) (hp : p < n) :
    (List.replicate n a).getD p d = a := by
  rw [List.getD_eq_getElem _ _ (by simpa using hp)]
  simp

/-- A single-cycle mask is NaNs, a block of ones, then NaNs. -/
theorem single_mask_decomp (lens : List ℕ) (i : ℕ) (hi : i < lens.length) :
    (get_single_wave_masks lens).getD i []
      = List.replicate ((lens.take i).sum) (none : FQ)
        ++ List.replicate (lens.getD i 0) (some 1)
        ++ List.replicate
            (lens.sum - (lens.take i).sum - lens.getD i 0) none := by
  have hle := take_sum_add_getD_le lens i hi
  have hL := single_mask_length lens i hi
  apply List.ext_getElem
  · simp only [hL, List.length_append, List.length_replicate]
    omega
  · intro p h1 h2
    have hp : p < lens.sum := by rw [hL] at h1; exact h1
    rw [← List.getD_eq_getElem _ none h1, ← List.getD_eq_getElem _ none h2,
      single_wave_mask_entry lens i hi p hp]
    by_cases hpo : p < (lens.take i).sum
    · rw [if_neg (by omega),
        List.getD_append _ _ _ _
          (by simp only [List.length_append, List.length_replicate]; omega),
        List.getD_append _ _ _ _ (by simp only [List.length_replicate]; omega),
        getD_replicate_lt _ _ _ _ hpo]
    · by_cases hpl : p < (lens.take i).sum + lens.getD i 0
      · rw [if_pos ⟨by omega, hpl⟩,
          List.getD_append _ _ _ _
            (by simp only [List.length_append, List.length_replicate]; omega),
          List.getD_append_right _ _ _ _
            (by simp only [List.length_replicate]; omega),
          getD_replicate_lt _ _ _ _
            (by simp only [List.length_replicate]; omega)]
      · rw [if_neg (by omega),
          List.getD_append_right _ _ _ _
            (by simp only [List.length_append, List.length_replicate]; omega),
          getD_replicate_lt _ _ _ _
            (by simp only [List.length_append, List.length_replicate]; omega)]

/-- Multiplying one all-finite cycle of samples by the mask of setpoint `i`
keeps the block of setpoint `i` and blanks the rest. -/
theorem masked_block (lens : List ℕ) (i : ℕ) (hi : i < lens.length)
    (block : List FQ) (hb : block.length = lens.sum)
    (hfin : ∀ v ∈ block, v.isSome) :
    List.zipWith fmul block ((get_single_wave_masks lens).getD i [])
      = List.replicate ((lens.take i).sum) none
        ++ ((block.drop ((lens.take i).sum)).take (lens.getD i 0)
        ++ List.replicate
            (lens.sum - (lens.take i).sum - lens.getD i 0) none) := by
  have hle := take_sum_add_getD_le lens i hi
  rw [single_mask_decomp lens i hi]
  have hsplit : block = block.take ((lens.take i).sum)
      ++ ((block.drop ((lens.take i).sum)).take (lens.getD i 0)
        ++ (block.drop ((lens.take i).sum)).drop (lens.getD i 0)) := by
    rw [List.take_append_drop, List.take_append_drop]
  have hlen1 : (block.take ((lens.take i).sum)).length
      = (lens.take i).sum := by
    simp only [List.length_take, hb]
    omega
  have hlen2 : ((block.drop ((lens.take i).sum)).take (lens.getD i 0)).length
      = lens.getD i 0 := by
    simp only [List.length_take, List.length_drop, hb]
    omega
  have hlen3 : ((block.drop ((lens.take i).sum)).drop (lens.getD i 0)).length
      = lens.sum - (lens.take i).sum - lens.getD i 0 := by
    simp only [List.length_drop, hb]
  conv_lhs => rw [hsplit]
  rw [List.append_assoc,
    List.zipWith_append _ _ _ _ _ (by rw [hlen1, List.length_replicate]),
    List.zipWith_append _ _ _ _ _ (by rw [hlen2, List.length_replicate]),
    zipWith_fmul_replicate_none _ _ hlen1,
    zipWith_fmul_replicate_one _ _ hlen2 (fun v hv => hfin v
      (List.mem_of_mem_drop (List.mem_of_mem_take hv))),
    zipWith_fmul_replicate_none _ _ hlen3]

/-- NaN removal on one masked cycle yields exactly the block of setpoint
`i` (lifted back with `some`). -/
theorem masked_block_filter (lens : List ℕ) (i : ℕ) (hi : i < lens.length)
    (block : List FQ) (hb : block.length = lens.sum)
    (hfin : ∀ v ∈ block, v.isSome) :
    ((List.zipWith fmul block
        ((get_single_wave_masks lens).getD i [])).filterMap id).map some
      = (block.drop ((lens.take i).sum)).take (lens.getD i 0) := by
  rw [masked_block lens i hi block hb hfin,
    List.filterMap_append, List.filterMap_append,
    filterMap_id_replicate_none, filterMap_id_replicate_none]
  simp only [List.nil_append, List.append_nil]
  exact filterMap_id_map_some _ (fun v hv => hfin v
    (List.mem_of_mem_drop (List.mem_of_mem_take hv)))

end PyDat

namespace PyDat

/-- NaN removal on a whole masked row of `reps` cycles yields the
concatenation of the setpoint-`i` blocks of each cycle. -/
theorem masked_row_windows (lens : List ℕ) (i : ℕ) (hi : i < lens.length)
    (reps : ℕ) (row : List FQ) (hr : row.length = reps * lens.sum)
    (hfin : ∀ v ∈ row, v.isSome) :
    ((List.zipWith fmul row
        (npTile reps ((get_single_wave_masks lens).getD i []))).filterMap
          id).map some
      = ((List.range reps).map (fun t =>
          (row.drop (t * lens.sum + (lens.take i).sum)).take
            (lens.getD i 0))).flatten := by
  have hle := take_sum_add_getD_le lens i hi
  induction reps generalizing row with
  | zero =>
    have hnil : row = [] := List.eq_nil_of_length_eq_zero (by simpa using hr)
    subst hnil
    simp [npTile]
  | succ r ih =>
    have hmlen := single_mask_length lens i hi
    have hLr : lens.sum ≤ row.length := by
      rw [hr]
      calc lens.sum = 1 * lens.sum := (Nat.one_mul _).symm
        _ ≤ (r + 1) * lens.sum := Nat.mul_le_mul_right _ (by omega)
    have htake_len : (row.take lens.sum).length = lens.sum := by
      simp only [List.length_take]
      omega
    have hdrop_len : (row.drop lens.sum).length = r * lens.sum := by
      simp only [List.length_drop, hr]
      have : (r + 1) * lens.sum = r * lens.sum + lens.sum := by ring
      omega
    have htile : npTile (r + 1) ((get_single_wave_masks lens).getD i [])
        = (get_single_wave_masks lens).getD i []
          ++ npTile r ((get_single_wave_masks lens).getD i []) := by
      simp [npTile, List.replicate_succ]
    have hsplit : row = row.take lens.sum ++ row.drop lens.sum :=
      (List.take_append_drop _ row).symm
    conv_lhs => rw [hsplit, htile]
    rw [List.zipWith_append _ _ _ _ _ (by rw [htake_len, hmlen]),
      List.filterMap_append, List.map_append,
      masked_block_filter lens i hi (row.take lens.sum) htake_len
        (fun v hv => hfin v (List.mem_of_mem_take hv)),
      ih (row.drop lens.sum) hdrop_len
        (fun v hv => hfin v (List.mem_of_mem_drop hv))]
    rw [List.range_succ_eq_map, List.map_cons, List.flatten_cons]
    congr 1
    · -- first window: the block of cycle 0
      rw [Nat.zero_mul, Nat.zero_add, List.drop_take]
      rw [List.take_take]
      congr 1
      omega
    · -- remaining windows: shift by one cycle
      rw [List.map_map]
      apply congrArg
      apply List.map_congr_left
      intro t ht
      simp only [Function.comp_apply]
      rw [List.drop_drop]
      congr 2
      rw [Nat.succ_eq_add_one]
      ring

end PyDat

namespace PyDat

/-- NaN removal on a masked row, without the `some` lifting: the kept
samples are the concatenated setpoint-`i` blocks of each cycle (with the
samples unwrapped by the same NaN removal, which keeps them all). -/
theorem masked_row_kept (lens : List ℕ) (i : ℕ) (hi : i < lens.length)
    (reps : ℕ) (row : List FQ) (hr : row.length = reps * lens.sum)
    (hfin : ∀ v ∈ row, v.isSome) :
    (List.zipWith fmul row
        (npTile reps ((get_single_wave_masks lens).getD i []))).filterMap id
      = ((List.range reps).map (fun t =>
          ((row.drop (t * lens.sum + (lens.take i).sum)).take
            (lens.getD i 0)).filterMap id)).flatten := by
  have h := masked_row_windows lens i hi reps row hr hfin
  have hL : (((List.zipWith fmul row
      (npTile reps ((get_single_wave_masks lens).getD i []))).filterMap
        id).map some).filterMap id
      = (List.zipWith fmul row
        (npTile reps ((get_single_wave_masks lens).getD i []))).filterMap
          id := by
    simp
  rw [← hL, h, List.filterMap_flatten, List.map_map]
  simp only [Function.comp_def]

end PyDat

namespace PyDat

/-- Structure of `chunk_data` on well-formed square-wave data: chunk `i` is,
per row of the scan, the `(num_steps, num_cycles)` grouping of the
setpoint-`i` sample blocks of the row's consecutive cycles. -/
theorem chunk_data_struct (rows : List (List FQ)) (lens : List ℕ)
    (steps cycles : ℕ) (hst : 0 < steps) (hcy : 0 < cycles)
    (hpos : ∀ li ∈ lens, 0 < li)
    (hrow : ∀ row ∈ rows, row.length = steps * cycles * lens.sum)
    (hfin : ∀ row ∈ rows, ∀ v ∈ row, v.isSome)
    (i : ℕ) (hi : i < lens.length) :
    (chunk_data rows (get_full_wave_masks lens steps cycles) lens steps
        cycles).getD i []
      = rows.map (fun row => chunksOf cycles
          ((List.range (cycles * steps)).map (fun t =>
            ((row.drop (t * lens.sum + (lens.take i).sum)).take
              (lens.getD i 0)).filterMap id))) := by
  have hlen_pos : 0 < lens.getD i 0 := hpos _ (getD_mem lens i 0 hi)
  have hsingles_len : (get_single_wave_masks lens).length = lens.length := by
    simp [get_single_wave_masks]
  have hmasks_len : (get_full_wave_masks lens steps cycles).length
      = lens.length := by
    simp [get_full_wave_masks, hsingles_len]
  have hzip_len : ((get_full_wave_masks lens steps cycles).zip lens).length
      = lens.length := by
    simp [hmasks_len]
  -- extract element i of the zip
  have hzip_getD : ((get_full_wave_masks lens steps cycles).zip lens).getD i
        ([], 0)
      = (npTile (cycles * steps) ((get_single_wave_masks lens).getD i []),
         lens.getD i 0) := by
    rw [List.getD_eq_getElem _ _ (by rw [hzip_len]; exact hi),
      List.getElem_zip]
    simp only [get_full_wave_masks, List.getElem_map]
    rw [← List.getD_eq_getElem (get_single_wave_masks lens) []
        (by rw [hsingles_len]; exact hi),
      ← List.getD_eq_getElem lens 0 hi]
  rw [chunk_data,
    getD_map_lt _ _ i (by rw [hzip_len]; exact hi) ([], 0) [], hzip_getD]
  simp only
  -- rewrite the NaN-removed flattened data as the flattened window lists
  have hwinlen : ∀ row ∈ rows, ∀ t ∈ List.range (cycles * steps),
      (((row.drop (t * lens.sum + (lens.take i).sum)).take
        (lens.getD i 0)).filterMap id).length = lens.getD i 0 := by
    intro row hrm t htm
    have ht : t < cycles * steps := List.mem_range.mp htm
    have hfin2 : ∀ v ∈ (row.drop (t * lens.sum + (lens.take i).sum)).take
        (lens.getD i 0), v.isSome := fun v hv =>
      hfin row hrm v (List.mem_of_mem_drop (List.mem_of_mem_take hv))
    rw [filterMap_id_length _ hfin2]
    have hle := take_sum_add_getD_le lens i hi
    have hrl := hrow row hrm
    have h1 : (t + 1) * lens.sum ≤ cycles * steps * lens.sum :=
      Nat.mul_le_mul_right _ (by omega)
    have h2 : (t + 1) * lens.sum = t * lens.sum + lens.sum := by ring
    have h3 : steps * cycles * lens.sum = cycles * steps * lens.sum := by
      ring
    simp only [List.length_take, List.length_drop, hrl]
    omega
  have hkept : rows.map ((List.filterMap id) ∘ (fun row =>
        List.zipWith fmul row (npTile (cycles * steps)
          ((get_single_wave_masks lens).getD i []))))
      = rows.map (fun row => ((List.range (cycles * steps)).map (fun t =>
          ((row.drop (t * lens.sum + (lens.take i).sum)).take
            (lens.getD i 0)).filterMap id)).flatten) := by
    apply List.map_congr_left
    intro row hrm
    simp only [Function.comp_apply]
    exact masked_row_kept lens i hi (cycles * steps) row
      (by rw [hrow row hrm]; ring) (hfin row hrm)
  have hflat : ((rows.map (fun row =>
        List.zipWith fmul row (npTile (cycles * steps)
          ((get_single_wave_masks lens).getD i [])))).flatten).filterMap id
      = ((rows.map (fun row => (List.range (cycles * steps)).map (fun t =>
          ((row.drop (t * lens.sum + (lens.take i).sum)).take
            (lens.getD i 0)).filterMap id))).flatten).flatten := by
    rw [List.filterMap_flatten, List.map_map, hkept, List.flatten_flatten,
      List.map_map]
    simp only [Function.comp_def]
  rw [hflat]
  -- regroup: samples into blocks, blocks into cycles, cycles into steps
  rw [chunksOf_flatten_uniform (lens.getD i 0) hlen_pos _
    (by
      intro w hw
      obtain ⟨wl, hwl, hww⟩ := List.mem_flatten.mp hw
      obtain ⟨row, hrm, hrw⟩ := List.mem_map.mp hwl
      subst hrw
      obtain ⟨t, htm, hwt⟩ := List.mem_map.mp hww
      subst hwt
      exact hwinlen row hrm t htm)]
  rw [chunksOf_flatten_dvd cycles (cycles * steps) hcy
    (Dvd.intro steps rfl) _
    (by
      intro wl hwl
      obtain ⟨row, hrm, hrw⟩ := List.mem_map.mp hwl
      subst hrw
      simp)]
  rw [List.map_map]
  rw [chunksOf_flatten_uniform steps hst _
    (by
      intro c hc
      obtain ⟨row, hrm, hrw⟩ := List.mem_map.mp hc
      subst hrw
      simp only [Function.comp_apply, chunksOf_length, List.length_map,
        List.length_range]
      exact Nat.mul_div_cancel_left steps hcy)]
  simp only [Function.comp_def]

end PyDat

namespace PyDat

/-- Length of the outer-transpose. -/
theorem transposeD_length (d : α) (m : List (List α)) :
    (transposeD d m).length = (m.headD []).length := by
  simp [transposeD]

/-- Row `j` of the outer-transpose. -/
theorem transposeD_getD (d : α) (m : List (List α)) (j : ℕ)
    (hj : j < (m.headD []).length) :
    (transposeD d m).getD j [] = m.map (fun r => r.getD j d) := by
  rw [transposeD, getD_range_map _ _ j hj]

/-- Length of `np.linspace`. -/
theorem np_linspace_length (a b : ℚ) (n : ℕ) :
    (np_linspace a b n).length = n := by
  rw [np_linspace]
  by_cases hz : n = 0
  · rw [if_pos hz]
    simp [hz]
  · rw [if_neg hz]
    by_cases ho : n = 1
    · rw [if_pos ho]
      simp [ho]
    · rw [if_neg ho]
      rw [List.length_map, List.length_range]

/-- The rank-1 entropy signal: length and the per-position combination of
the four setpoint values. -/
theorem entropy_signal_combo (data : List (List FQ)) (w : ℕ)
    (h4 : data.length = 4) (hlen : ∀ r ∈ data, r.length = w) :
    (entropy_signal data).length = w ∧
    ∀ s < w, (entropy_signal data).getD s none
      = entropyCombo ((data.getD 0 []).getD s none)
          ((data.getD 1 []).getD s none) ((data.getD 2 []).getD s none)
          ((data.getD 3 []).getD s none) := by
  rcases data with _ | ⟨r0, _ | ⟨r1, _ | ⟨r2, _ | ⟨r3, _ | ⟨r4, rest⟩⟩⟩⟩⟩ <;>
    simp only [List.length_nil, List.length_cons] at h4 <;> try omega
  have h0 : r0.length = w := hlen r0 (by simp)
  have h1 : r1.length = w := hlen r1 (by simp)
  have h2 : r2.length = w := hlen r2 (by simp)
  have h3 : r3.length = w := hlen r3 (by simp)
  constructor
  · simp [entropy_signal, npMeanPair, h0, h1, h2, h3]
  · intro s hs
    have hes : s < (entropy_signal [r0, r1, r2, r3]).length := by
      simp [entropy_signal, npMeanPair, h0, h1, h2, h3]
      omega
    rw [List.getD_eq_getElem _ _ hes]
    simp only [List.getD_cons_zero, List.getD_cons_succ]
    rw [List.getD_eq_getElem _ _ (by omega : s < r0.length),
      List.getD_eq_getElem _ _ (by omega : s < r1.length),
      List.getD_eq_getElem _ _ (by omega : s < r2.length),
      List.getD_eq_getElem _ _ (by omega : s < r3.length)]
    simp only [entropy_signal, npMeanPair, List.getElem_map,
      List.getElem_zipWith, List.getD_cons_zero, List.getD_cons_succ]
    rfl

/-- The rank-2 entropy signal: shapes and the per-position combination. -/
theorem entropy_signal2_combo (data : List (List (List FQ))) (ylen w : ℕ)
    (h4 : data.length = 4)
    (hy : ∀ m ∈ data, m.length = ylen)
    (hw : ∀ m ∈ data, ∀ r ∈ m, r.length = w) :
    (entropy_signal2 data).length = ylen ∧
    (∀ y < ylen, ((entropy_signal2 data).getD y []).length = w) ∧
    ∀ y < ylen, ∀ s < w, ((entropy_signal2 data).getD y []).getD s none
      = entropyCombo (((data.getD 0 []).getD y []).getD s none)
          (((data.getD 1 []).getD y []).getD s none)
          (((data.getD 2 []).getD y []).getD s none)
          (((data.getD 3 []).getD y []).getD s none) := by
  rcases data with _ | ⟨m0, _ | ⟨m1, _ | ⟨m2, _ | ⟨m3, _ | ⟨m4, rest⟩⟩⟩⟩⟩ <;>
    simp only [List.length_nil, List.length_cons] at h4 <;> try omega
  have h0 : m0.length = ylen := hy m0 (by simp)
  have h1 : m1.length = ylen := hy m1 (by simp)
  have h2 : m2.length = ylen := hy m2 (by simp)
  have h3 : m3.length = ylen := hy m3 (by simp)
  have hw0 : ∀ y < ylen, (m0.getD y []).length = w := fun y hy2 =>
    hw m0 (by simp) _ (getD_mem m0 y [] (by omega))
  have hw1 : ∀ y < ylen, (m1.getD y []).length = w := fun y hy2 =>
    hw m1 (by simp) _ (getD_mem m1 y [] (by omega))
  have hw2 : ∀ y < ylen, (m2.getD y []).length = w := fun y hy2 =>
    hw m2 (by simp) _ (getD_mem m2 y [] (by omega))
  have hw3 : ∀ y < ylen, (m3.getD y []).length = w := fun y hy2 =>
    hw m3 (by simp) _ (getD_mem m3 y [] (by omega))
  have hlen : (entropy_signal2 [m0, m1, m2, m3]).length = ylen := by
    simp [entropy_signal2, npMeanPair2, h0, h1, h2, h3]
  have hrowlen : ∀ y < ylen,
      ((entropy_signal2 [m0, m1, m2, m3]).getD y []).length = w := by
    intro y hy2
    have hyy : y < (entropy_signal2 [m0, m1, m2, m3]).length := by omega
    have g0 : y < m0.length := by omega
    have g1 : y < m1.length := by omega
    have g2 : y < m2.length := by omega
    have g3 : y < m3.length := by omega
    have e0 : m0[y].length = w := hw m0 (by simp) _ (List.getElem_mem g0)
    have e1 : m1[y].length = w := hw m1 (by simp) _ (List.getElem_mem g1)
    have e2 : m2[y].length = w := hw m2 (by simp) _ (List.getElem_mem g2)
    have e3 : m3[y].length = w := hw m3 (by simp) _ (List.getElem_mem g3)
    rw [List.getD_eq_getElem _ _ hyy]
    simp only [entropy_signal2, npMeanPair2, List.getElem_map,
      List.getElem_zipWith, List.getD_cons_zero, List.getD_cons_succ]
    simp only [List.length_map, List.length_zipWith, e0, e1, e2, e3]
    omega
  refine ⟨hlen, hrowlen, ?_⟩
  intro y hy2 s hs
  have hyy : y < (entropy_signal2 [m0, m1, m2, m3]).length := by omega
  have g0 : y < m0.length := by omega
  have g1 : y < m1.length := by omega
  have g2 : y < m2.length := by omega
  have g3 : y < m3.length := by omega
  have e0 : m0[y].length = w := hw m0 (by simp) _ (List.getElem_mem g0)
  have e1 : m1[y].length = w := hw m1 (by simp) _ (List.getElem_mem g1)
  have e2 : m2[y].length = w := hw m2 (by simp) _ (List.getElem_mem g2)
  have e3 : m3[y].length = w := hw m3 (by simp) _ (List.getElem_mem g3)
  rw [List.getD_eq_getElem _ _ hyy]
  have hss2 : s < (entropy_signal2 [m0, m1, m2, m3])[y].length := by
    have := hrowlen y hy2
    rw [List.getD_eq_getElem _ _ hyy] at this
    omega
  rw [List.getD_eq_getElem _ _ hss2]
  simp only [List.getD_cons_zero, List.getD_cons_succ]
  rw [List.getD_eq_getElem m0 [] g0, List.getD_eq_getElem m1 [] g1,
    List.getD_eq_getElem m2 [] g2, List.getD_eq_getElem m3 [] g3,
    List.getD_eq_getElem _ none (by omega : s < m0[y].length),
    List.getD_eq_getElem _ none (by omega : s < m1[y].length),
    List.getD_eq_getElem _ none (by omega : s < m2[y].length),
    List.getD_eq_getElem _ none (by omega : s < m3[y].length)]
  simp only [entropy_signal2, npMeanPair2, List.getElem_map,
    List.getElem_zipWith, List.getD_cons_zero, List.getD_cons_succ]
  rfl

end PyDat

namespace PyDat

/-- A pointwise `getD` property over all indices gives the property for all
members. -/
theorem forall_mem_of_getD {α : Type} {P : α → Prop} (l : List α) (d : α)
    (h : ∀ k < l.length, P (l.getD k d)) : ∀ x ∈ l, P x := by
  intro x hx
  obtain ⟨k, hk, hkx⟩ := List.mem_iff_getElem.mp hx
  have h2 := h k hk
  rw [List.getD_eq_getElem l d hk, hkx] at h2
  exact h2

/-- Shape and entries of the `(num_steps, num_cycles)` regrouping of the
`num_cycles * num_steps` per-cycle windows of one row. -/
theorem cycle_group_entries {α : Type} (win : ℕ → List α) (steps cycles : ℕ)
    (hcy : 0 < cycles) :
    (chunksOf cycles ((List.range (cycles * steps)).map win)).length
      = steps ∧
    ∀ s < steps,
      ((chunksOf cycles ((List.range (cycles * steps)).map win)).getD s
        []).length = cycles ∧
      ∀ c < cycles,
        ((chunksOf cycles ((List.range (cycles * steps)).map win)).getD s
          []).getD c [] = win (s * cycles + c) := by
  have hmlen : ((List.range (cycles * steps)).map win).length
      = cycles * steps := by simp
  have hdiv : cycles * steps / cycles = steps :=
    Nat.mul_div_cancel_left steps hcy
  refine ⟨by rw [chunksOf_length, hmlen, hdiv], fun s hs => ?_⟩
  have hsd : s < ((List.range (cycles * steps)).map win).length / cycles := by
    rw [hmlen, hdiv]
    exact hs
  refine ⟨chunksOf_getD_length cycles _ s hcy hsd, fun c hc => ?_⟩
  rw [chunksOf_getD cycles _ s hsd]
  have h1 : (s + 1) * cycles ≤ steps * cycles :=
    Nat.mul_le_mul_right _ (by omega)
  have h2 : (s + 1) * cycles = s * cycles + cycles := by ring
  have h3 : steps * cycles = cycles * steps := by ring
  have hbound : s * cycles + cycles
      ≤ ((List.range (cycles * steps)).map win).length := by
    rw [hmlen]
    omega
  rw [take_drop_getD ((List.range (cycles * steps)).map win) (s * cycles)
    cycles c [] hc hbound]
  have hsc : s * cycles + c < cycles * steps := by omega
  exact getD_range_map win (cycles * steps) (s * cycles + c) hsc []

/-- `chunk_data` returns one chunk per setpoint. -/
theorem chunk_data_length (rows : List (List FQ)) (lens : List ℕ)
    (steps cycles : ℕ) :
    (chunk_data rows (get_full_wave_masks lens steps cycles) lens steps
      cycles).length = lens.length := by
  simp [chunk_data, get_full_wave_masks, get_single_wave_masks]

/-- `meanRows` produces one mean per column of the leading row. -/
theorem meanRows_length (avg_nans : Bool) (m : List (List FQ)) :
    (meanRows avg_nans m).length = (m.headD []).length := by
  simp [meanRows]

/-- The first centered row has the common interpolated width. -/
theorem center_data_head_length (x : List ℚ) (data : List (List FQ))
    (centers : List ℚ) (n : ℕ) (hd : (data.headD []).length = n)
    (hpos : 0 < data.length) (hc : 0 < centers.length) :
    (((center_data x data centers).1).headD []).length = n := by
  have hzlen : 0 < (data.zip centers).length := by
    rw [List.length_zip]
    omega
  have h0 : (center_data x data centers).1
      = (data.zip centers).map (fun rc =>
          (np_linspace (x.headD 0 - centers.sum / (centers.length : ℚ))
            (x.getLastD 0 - centers.sum / (centers.length : ℚ))
            (data.headD []).length).map (fun t =>
              interp1d (x.map (fun xi => xi - rc.2)) rc.1 t)) := rfl
  rw [h0, headD_eq_getD, getD_map_lt _ (data.zip centers) 0 hzlen ([], 0) []]
  simp only [List.length_map]
  rw [np_linspace_length]
  exact hd

end PyDat

namespace PyDat

/-- C2: for a well-formed square-wave scan (positive setpoint lengths and
step/cycle counts, masks as built by the AWG, rows of the full scan length
with no NaNs, at least two rows so no axis is squeezed, one center per
row), `process_per_row_parts` fills its Output in order: (1) it chunks the
raw `i_sense` data with the full-wave masks into one array per setpoint of
shape `(ylen, num_steps, num_cycles, setpoint_length)` whose innermost
entries are the consecutive setpoint sample blocks of each waveform cycle;
(2) it averages each setpoint chunk over the `[setpoint_start:setpoint_fin]`
slice of its sample axis; (3) it averages the cycle axis over
`[cycle_start:cycle_fin]`; (4) it computes the per-row entropy signal from
the four resulting setpoint traces; and `process_avg_parts` then (5)
centers each of the four parts with the given centers and averages over
rows, and (6) computes the averaged entropy signal from the averaged
four-part data. -/
theorem process_parts_correct (inp : Input) (pp : ProcessParams)
    (centers : List ℚ) (lens : List ℕ) (steps cycles ylen : ℕ)
    (hlens : inp.setpoint_lengths = lens) (hlen4 : lens.length = 4)
    (hpos : ∀ li ∈ lens, 0 < li)
    (hsteps : inp.num_steps = steps) (hcycles : inp.num_cycles = cycles)
    (hst : 0 < steps) (hcy : 0 < cycles)
    (hmask : inp.full_wave_masks = get_full_wave_masks lens steps cycles)
    (hylen : inp.i_sense.length = ylen) (hy2 : 2 ≤ ylen)
    (hrow : ∀ row ∈ inp.i_sense, row.length = steps * cycles * lens.sum)
    (hfin : ∀ row ∈ inp.i_sense, ∀ v ∈ row, v.isSome)
    (hcent : centers.length = ylen) :
    ∃ chunked sa cycled esig avgd aesig,
      (process_per_row_parts inp pp).chunked = chunked ∧
      (process_per_row_parts inp pp).setpoint_averaged = sa ∧
      (process_per_row_parts inp pp).cycled = cycled ∧
      (process_per_row_parts inp pp).entropy_signal = esig ∧
      (process_avg_parts (process_per_row_parts inp pp) inp
        centers).averaged = avgd ∧
      (process_avg_parts (process_per_row_parts inp pp) inp
        centers).average_entropy_signal = aesig ∧
      (chunked.length = 4 ∧ ∀ i < 4,
        (chunked.getD i []).length = ylen ∧ ∀ y < ylen,
        ((chunked.getD i []).getD y []).length = steps ∧ ∀ s < steps,
        (((chunked.getD i []).getD y []).getD s []).length = cycles ∧
        ∀ c < cycles,
        ((((chunked.getD i []).getD y []).getD s []).getD c []).length
            = lens.getD i 0 ∧
        ((((chunked.getD i []).getD y []).getD s []).getD c []).map some
          = ((inp.i_sense.getD y []).drop
              ((s * cycles + c) * lens.sum + (lens.take i).sum)).take
              (lens.getD i 0)) ∧
      (sa.length = ylen ∧ ∀ y < ylen,
        (sa.getD y []).length = 4 ∧ ∀ i < 4,
        ((sa.getD y []).getD i []).length = steps ∧ ∀ s < steps,
        (((sa.getD y []).getD i []).getD s []).length = cycles ∧
        ∀ c < cycles,
        (((sa.getD y []).getD i []).getD s []).getD c none
          = qmean (pySlice pp.setpoint_start pp.setpoint_fin
              ((((chunked.getD i []).getD y []).getD s []).getD c []))) ∧
      (cycled.length = ylen ∧ ∀ y < ylen,
        (cycled.getD y []).length = 4 ∧ ∀ i < 4,
        ((cycled.getD y []).getD i []).length = steps ∧ ∀ s < steps,
        ((cycled.getD y []).getD i []).getD s none
          = fmean (pySlice pp.cycle_start pp.cycle_fin
              (((sa.getD y []).getD i []).getD s []))) ∧
      (esig.length = ylen ∧ ∀ y < ylen,
        (esig.getD y []).length = steps ∧ ∀ s < steps,
        (esig.getD y []).getD s none
          = entropyCombo (((cycled.getD y []).getD 0 []).getD s none)
              (((cycled.getD y []).getD 1 []).getD s none)
              (((cycled.getD y []).getD 2 []).getD s none)
              (((cycled.getD y []).getD 3 []).getD s none)) ∧
      (avgd.length = 4 ∧ ∀ i < 4,
        (avgd.getD i []).length = steps ∧
        avgd.getD i [] = meanRows inp.avg_nans
          (center_data (process_per_row_parts inp pp).x
            (cycled.map (fun r => r.getD i [])) centers).1) ∧
      (aesig.length = steps ∧ ∀ s < steps,
        aesig.getD s none
          = entropyCombo ((avgd.getD 0 []).getD s none)
              ((avgd.getD 1 []).getD s none) ((avgd.getD 2 []).getD s none)
              ((avgd.getD 3 []).getD s none)) := by
  have hy1 : 0 < ylen := by omega
  set C := chunk_data inp.i_sense (get_full_wave_masks lens steps cycles)
    lens steps cycles with hCdef
  set M := C.map (fun z => z.map (fun a => a.map (fun b => b.map (fun sp =>
    qmean (pySlice pp.setpoint_start pp.setpoint_fin sp))))) with hMdef
  set SA := average_setpoints C pp.setpoint_start pp.setpoint_fin with hSAdef
  set CY := average_cycles SA pp.cycle_start pp.cycle_fin with hCYdef
  set T := transposeD [] CY with hTdef
  set AV := (T.map (fun z => center_data (process_per_row_parts inp pp).x z
    centers)).map (fun p => meanRows inp.avg_nans p.1) with hAVdef
  -- the Output fields are the staged pipeline values
  have hPc : (process_per_row_parts inp pp).chunked = C := by
    have h0 : (process_per_row_parts inp pp).chunked
        = chunk_data inp.i_sense inp.full_wave_masks inp.setpoint_lengths
          inp.num_steps inp.num_cycles := rfl
    rw [h0, hmask, hlens, hsteps, hcycles, hCdef]
  have hPsa : (process_per_row_parts inp pp).setpoint_averaged = SA := by
    have h0 : (process_per_row_parts inp pp).setpoint_averaged
        = average_setpoints (chunk_data inp.i_sense inp.full_wave_masks
            inp.setpoint_lengths inp.num_steps inp.num_cycles)
            pp.setpoint_start pp.setpoint_fin := rfl
    rw [h0, hmask, hlens, hsteps, hcycles, hSAdef, hCdef]
  have hPcy : (process_per_row_parts inp pp).cycled = CY := by
    have h0 : (process_per_row_parts inp pp).cycled
        = average_cycles (average_setpoints (chunk_data inp.i_sense
            inp.full_wave_masks inp.setpoint_lengths inp.num_steps
            inp.num_cycles) pp.setpoint_start pp.setpoint_fin)
            pp.cycle_start pp.cycle_fin := rfl
    rw [h0, hmask, hlens, hsteps, hcycles, hCYdef, hSAdef, hCdef]
  have hPes : (process_per_row_parts inp pp).entropy_signal
      = entropy_signal2 T := by
    have h0 : (process_per_row_parts inp pp).entropy_signal
        = entropy_signal2 (transposeD [] (average_cycles (average_setpoints
            (chunk_data inp.i_sense inp.full_wave_masks inp.setpoint_lengths
              inp.num_steps inp.num_cycles) pp.setpoint_start
            pp.setpoint_fin) pp.cycle_start pp.cycle_fin)) := rfl
    rw [h0, hmask, hlens, hsteps, hcycles, hTdef, hCYdef, hSAdef, hCdef]
  have hAav : (process_avg_parts (process_per_row_parts inp pp) inp
      centers).averaged = AV := by
    have h0 : (process_avg_parts (process_per_row_parts inp pp) inp
        centers).averaged
        = ((transposeD [] (process_per_row_parts inp pp).cycled).map
            (fun z => center_data (process_per_row_parts inp pp).x z
              centers)).map (fun p => meanRows inp.avg_nans p.1) := rfl
    rw [h0, hPcy, hAVdef, hTdef]
  have hAes : (process_avg_parts (process_per_row_parts inp pp) inp
      centers).average_entropy_signal = entropy_signal AV := by
    have h0 : (process_avg_parts (process_per_row_parts inp pp) inp
        centers).average_entropy_signal
        = entropy_signal (process_avg_parts (process_per_row_parts inp pp)
            inp centers).averaged := rfl
    rw [h0, hAav]
  -- (1) the chunks
  have hClen : C.length = 4 := by rw [hCdef, chunk_data_length, hlen4]
  have hCi : ∀ i < 4, C.getD i []
      = inp.i_sense.map (fun row => chunksOf cycles
          ((List.range (cycles * steps)).map (fun t =>
            ((row.drop (t * lens.sum + (lens.take i).sum)).take
              (lens.getD i 0)).filterMap id))) := by
    intro i hi
    rw [hCdef]
    exact chunk_data_struct inp.i_sense lens steps cycles hst hcy hpos hrow
      hfin i (by omega)
  have hCilen : ∀ i < 4, (C.getD i []).length = ylen := by
    intro i hi
    rw [hCi i hi, List.length_map, hylen]
  have hCiy : ∀ i < 4, ∀ y < ylen, (C.getD i []).getD y []
      = chunksOf cycles ((List.range (cycles * steps)).map (fun t =>
          (((inp.i_sense.getD y []).drop
            (t * lens.sum + (lens.take i).sum)).take
            (lens.getD i 0)).filterMap id)) := by
    intro i hi y hy
    rw [hCi i hi, getD_map_lt _ inp.i_sense y (by rw [hylen]; exact hy) [] []]
  have hCys : ∀ i < 4, ∀ y < ylen,
      ((C.getD i []).getD y []).length = steps ∧
      ∀ s < steps, (((C.getD i []).getD y []).getD s []).length = cycles ∧
      ∀ c < cycles, ((((C.getD i []).getD y []).getD s []).getD c [])
        = (((inp.i_sense.getD y []).drop
            ((s * cycles + c) * lens.sum + (lens.take i).sum)).take
            (lens.getD i 0)).filterMap id := by
    intro i hi y hy
    rw [hCiy i hi y hy]
    exact cycle_group_entries (fun t =>
      (((inp.i_sense.getD y []).drop (t * lens.sum + (lens.take i).sum)).take
        (lens.getD i 0)).filterMap id) steps cycles hcy
  have hrowy : ∀ y < ylen, (inp.i_sense.getD y []).length
      = steps * cycles * lens.sum := fun y hy =>
    hrow _ (getD_mem inp.i_sense y [] (by rw [hylen]; exact hy))
  have hfiny : ∀ y < ylen, ∀ v ∈ inp.i_sense.getD y [], v.isSome :=
    fun y hy =>
    hfin _ (getD_mem inp.i_sense y [] (by rw [hylen]; exact hy))
  have hwin : ∀ i < 4, ∀ y < ylen, ∀ t < cycles * steps,
      ((((inp.i_sense.getD y []).drop
        (t * lens.sum + (lens.take i).sum)).take
        (lens.getD i 0)).filterMap id).map some
        = ((inp.i_sense.getD y []).drop
            (t * lens.sum + (lens.take i).sum)).take (lens.getD i 0) ∧
      ((((inp.i_sense.getD y []).drop
        (t * lens.sum + (lens.take i).sum)).take
        (lens.getD i 0)).filterMap id).length = lens.getD i 0 := by
    intro i hi y hy t ht
    have hfin2 : ∀ v ∈ ((inp.i_sense.getD y []).drop
        (t * lens.sum + (lens.take i).sum)).take (lens.getD i 0),
        v.isSome := fun v hv =>
      hfiny y hy v (List.mem_of_mem_drop (List.mem_of_mem_take hv))
    refine ⟨filterMap_id_map_some _ hfin2, ?_⟩
    rw [filterMap_id_length _ hfin2]
    have hle := take_sum_add_getD_le lens i (by omega)
    have hrl := hrowy y hy
    have h1 : (t + 1) * lens.sum ≤ cycles * steps * lens.sum :=
      Nat.mul_le_mul_right _ (by omega)
    have h2 : (t + 1) * lens.sum = t * lens.sum + lens.sum := by ring
    have h3 : steps * cycles * lens.sum = cycles * steps * lens.sum := by
      ring
    simp only [List.length_take, List.length_drop, hrl]
    omega
  have g1 : C.length = 4 ∧ ∀ i < 4,
      (C.getD i []).length = ylen ∧ ∀ y < ylen,
      ((C.getD i []).getD y []).length = steps ∧ ∀ s < steps,
      (((C.getD i []).getD y []).getD s []).length = cycles ∧
      ∀ c < cycles,
      ((((C.getD i []).getD y []).getD s []).getD c []).length
          = lens.getD i 0 ∧
      ((((C.getD i []).getD y []).getD s []).getD c []).map some
        = ((inp.i_sense.getD y []).drop
            ((s * cycles + c) * lens.sum + (lens.take i).sum)).take
            (lens.getD i 0) := by
    refine ⟨hClen, fun i hi => ⟨hCilen i hi, fun y hy => ?_⟩⟩
    obtain ⟨hsl, hrest⟩ := hCys i hi y hy
    refine ⟨hsl, fun s hs => ?_⟩
    obtain ⟨hcl, hentry⟩ := hrest s hs
    refine ⟨hcl, fun c hc => ?_⟩
    have ht : s * cycles + c < cycles * steps := by
      have h1 : (s + 1) * cycles ≤ steps * cycles :=
        Nat.mul_le_mul_right _ (by omega)
      have h2 : (s + 1) * cycles = s * cycles + cycles := by ring
      have h3 : steps * cycles = cycles * steps := by ring
      omega
    rw [hentry c hc]
    exact ⟨(hwin i hi y hy (s * cycles + c) ht).2,
      (hwin i hi y hy (s * cycles + c) ht).1⟩
  -- (2) the setpoint averages
  have hMlen : M.length = 4 := by rw [hMdef, List.length_map, hClen]
  have hMi : ∀ i < 4, M.getD i [] = (C.getD i []).map (fun a => a.map
      (fun b => b.map (fun sp => qmean (pySlice pp.setpoint_start
        pp.setpoint_fin sp)))) := by
    intro i hi
    rw [hMdef, getD_map_lt _ C i (by rw [hClen]; exact hi) [] []]
  have hMhead : (M.headD []).length = ylen := by
    rw [headD_eq_getD, hMi 0 (by omega), List.length_map]
    exact hCilen 0 (by omega)
  have hSAM : SA = transposeD [] M := by
    rw [hMdef]
    exact hSAdef.trans rfl
  have hSAlen : SA.length = ylen := by
    rw [hSAM, transposeD_length, hMhead]
  have hSAy : ∀ y < ylen, SA.getD y [] = M.map (fun r => r.getD y []) := by
    intro y hy
    rw [hSAM]
    exact transposeD_getD [] M y (by rw [hMhead]; exact hy)
  have hSAylen : ∀ y < ylen, (SA.getD y []).length = 4 := by
    intro y hy
    rw [hSAy y hy, List.length_map, hMlen]
  have hSAyi : ∀ y < ylen, ∀ i < 4, (SA.getD y []).getD i []
      = ((C.getD i []).getD y []).map (fun b => b.map (fun sp =>
          qmean (pySlice pp.setpoint_start pp.setpoint_fin sp))) := by
    intro y hy i hi
    rw [hSAy y hy, getD_map_lt _ M i (by rw [hMlen]; exact hi) [] [],
      hMi i hi,
      getD_map_lt _ (C.getD i []) y (by rw [hCilen i hi]; exact hy) [] []]
  have hSAyilen : ∀ y < ylen, ∀ i < 4,
      ((SA.getD y []).getD i []).length = steps := by
    intro y hy i hi
    rw [hSAyi y hy i hi, List.length_map, (hCys i hi y hy).1]
  have hSAyis : ∀ y < ylen, ∀ i < 4, ∀ s < steps,
      ((SA.getD y []).getD i []).getD s []
        = (((C.getD i []).getD y []).getD s []).map (fun sp =>
            qmean (pySlice pp.setpoint_start pp.setpoint_fin sp)) := by
    intro y hy i hi s hs
    rw [hSAyi y hy i hi, getD_map_lt _ ((C.getD i []).getD y []) s
      (by rw [(hCys i hi y hy).1]; exact hs) [] []]
  have hSAyislen : ∀ y < ylen, ∀ i < 4, ∀ s < steps,
      (((SA.getD y []).getD i []).getD s []).length = cycles := by
    intro y hy i hi s hs
    rw [hSAyis y hy i hi s hs, List.length_map,
      ((hCys i hi y hy).2 s hs).1]
  have hSAyisc : ∀ y < ylen, ∀ i < 4, ∀ s < steps, ∀ c < cycles,
      (((SA.getD y []).getD i []).getD s []).getD c none
        = qmean (pySlice pp.setpoint_start pp.setpoint_fin
            ((((C.getD i []).getD y []).getD s []).getD c [])) := by
    intro y hy i hi s hs c hc
    rw [hSAyis y hy i hi s hs, getD_map_lt _ (((C.getD i []).getD y
      []).getD s []) c (by rw [((hCys i hi y hy).2 s hs).1]; exact hc) []
      none]
  have g2 : SA.length = ylen ∧ ∀ y < ylen,
      (SA.getD y []).length = 4 ∧ ∀ i < 4,
      ((SA.getD y []).getD i []).length = steps ∧ ∀ s < steps,
      (((SA.getD y []).getD i []).getD s []).length = cycles ∧
      ∀ c < cycles,
      (((SA.getD y []).getD i []).getD s []).getD c none
        = qmean (pySlice pp.setpoint_start pp.setpoint_fin
            ((((C.getD i []).getD y []).getD s []).getD c [])) :=
    ⟨hSAlen, fun y hy => ⟨hSAylen y hy, fun i hi => ⟨hSAyilen y hy i hi,
      fun s hs => ⟨hSAyislen y hy i hi s hs,
        fun c hc => hSAyisc y hy i hi s hs c hc⟩⟩⟩⟩
  -- (3) the cycle averages
  have hCYM : CY = SA.map (fun yr => yr.map (fun ir => ir.map (fun cr =>
      fmean (pySlice pp.cycle_start pp.cycle_fin cr)))) :=
    hCYdef.trans rfl
  have hCYlen : CY.length = ylen := by
    rw [hCYM, List.length_map, hSAlen]
  have hCYy : ∀ y < ylen, CY.getD y []
      = (SA.getD y []).map (fun ir => ir.map (fun cr =>
          fmean (pySlice pp.cycle_start pp.cycle_fin cr))) := by
    intro y hy
    rw [hCYM, getD_map_lt _ SA y (by rw [hSAlen]; exact hy) [] []]
  have hCYylen : ∀ y < ylen, (CY.getD y []).length = 4 := by
    intro y hy
    rw [hCYy y hy, List.length_map, hSAylen y hy]
  have hCYyi : ∀ y < ylen, ∀ i < 4, (CY.getD y []).getD i []
      = ((SA.getD y []).getD i []).map (fun cr =>
          fmean (pySlice pp.cycle_start pp.cycle_fin cr)) := by
    intro y hy i hi
    rw [hCYy y hy, getD_map_lt _ (SA.getD y []) i
      (by rw [hSAylen y hy]; exact hi) [] []]
  have hCYyilen : ∀ y < ylen, ∀ i < 4,
      ((CY.getD y []).getD i []).length = steps := by
    intro y hy i hi
    rw [hCYyi y hy i hi, List.length_map, hSAyilen y hy i hi]
  have hCYyis : ∀ y < ylen, ∀ i < 4, ∀ s < steps,
      ((CY.getD y []).getD i []).getD s none
        = fmean (pySlice pp.cycle_start pp.cycle_fin
            (((SA.getD y []).getD i []).getD s [])) := by
    intro y hy i hi s hs
    rw [hCYyi y hy i hi, getD_map_lt _ ((SA.getD y []).getD i []) s
      (by rw [hSAyilen y hy i hi]; exact hs) [] none]
  have g3 : CY.length = ylen ∧ ∀ y < ylen,
      (CY.getD y []).length = 4 ∧ ∀ i < 4,
      ((CY.getD y []).getD i []).length = steps ∧ ∀ s < steps,
      ((CY.getD y []).getD i []).getD s none
        = fmean (pySlice pp.cycle_start pp.cycle_fin
            (((SA.getD y []).getD i []).getD s [])) :=
    ⟨hCYlen, fun y hy => ⟨hCYylen y hy, fun i hi => ⟨hCYyilen y hy i hi,
      fun s hs => hCYyis y hy i hi s hs⟩⟩⟩
  -- (4) the per-row entropy signal
  have hCYhead : (CY.headD []).length = 4 := by
    rw [headD_eq_getD]
    exact hCYylen 0 hy1
  have hTlen : T.length = 4 := by
    rw [hTdef, transposeD_length, hCYhead]
  have hTi : ∀ i < 4, T.getD i [] = CY.map (fun r => r.getD i []) := by
    intro i hi
    rw [hTdef]
    exact transposeD_getD [] CY i (by rw [hCYhead]; exact hi)
  have hTyi : ∀ i < 4, ∀ y < ylen, (T.getD i []).getD y []
      = (CY.getD y []).getD i [] := by
    intro i hi y hy
    rw [hTi i hi, getD_map_lt _ CY y (by rw [hCYlen]; exact hy) [] []]
  have hTy : ∀ m ∈ T, m.length = ylen :=
    forall_mem_of_getD (P := fun m => m.length = ylen) T [] (fun k hk => by
      have hk4 : k < 4 := by rw [hTlen] at hk; exact hk
      show (T.getD k []).length = ylen
      rw [hTi k hk4, List.length_map, hCYlen])
  have hTw : ∀ m ∈ T, ∀ r ∈ m, r.length = steps :=
    forall_mem_of_getD (P := fun m => ∀ r ∈ m, r.length = steps) T []
      (fun k hk =>
        forall_mem_of_getD (P := fun r => r.length = steps) (T.getD k []) []
          (fun j hj => by
            have hk4 : k < 4 := by rw [hTlen] at hk; exact hk
            show ((T.getD k []).getD j []).length = steps
            have hjy : j < ylen := by
              rw [hTi k hk4, List.length_map, hCYlen] at hj
              exact hj
            rw [hTyi k hk4 j hjy]
            exact hCYyilen j hjy k hk4))
  have g4 : (entropy_signal2 T).length = ylen ∧ ∀ y < ylen,
      ((entropy_signal2 T).getD y []).length = steps ∧ ∀ s < steps,
      ((entropy_signal2 T).getD y []).getD s none
        = entropyCombo (((CY.getD y []).getD 0 []).getD s none)
            (((CY.getD y []).getD 1 []).getD s none)
            (((CY.getD y []).getD 2 []).getD s none)
            (((CY.getD y []).getD 3 []).getD s none) := by
    obtain ⟨h1, h2, h3⟩ := entropy_signal2_combo T ylen steps hTlen hTy hTw
    refine ⟨h1, fun y hy => ⟨h2 y hy, fun s hs => ?_⟩⟩
    rw [h3 y hy s hs, hTyi 0 (by omega) y hy, hTyi 1 (by omega) y hy,
      hTyi 2 (by omega) y hy, hTyi 3 (by omega) y hy]
  -- (5) the centered row averages
  have hAVlen : AV.length = 4 := by
    rw [hAVdef, List.length_map, List.length_map, hTlen]
  have hAVi : ∀ i < 4, AV.getD i []
      = meanRows inp.avg_nans
          (center_data (process_per_row_parts inp pp).x
            (CY.map (fun r => r.getD i [])) centers).1 := by
    intro i hi
    have hcl : i < (T.map (fun z => center_data
        (process_per_row_parts inp pp).x z centers)).length := by
      rw [List.length_map, hTlen]
      exact hi
    rw [hAVdef, getD_map_lt _ _ i hcl ([], []) [],
      getD_map_lt _ T i (by rw [hTlen]; exact hi) [] ([], []), hTi i hi]
  have hdatahead : ∀ i < 4,
      ((CY.map (fun r => r.getD i [])).headD []).length = steps := by
    intro i hi
    rw [headD_eq_getD, getD_map_lt _ CY 0 (by rw [hCYlen]; omega) [] []]
    exact hCYyilen 0 hy1 i hi
  have hAVilen : ∀ i < 4, (AV.getD i []).length = steps := by
    intro i hi
    rw [hAVi i hi, meanRows_length]
    exact center_data_head_length _ _ centers steps (hdatahead i hi)
      (by rw [List.length_map, hCYlen]; omega) (by rw [hcent]; omega)
  have g5 : AV.length = 4 ∧ ∀ i < 4,
      (AV.getD i []).length = steps ∧
      AV.getD i [] = meanRows inp.avg_nans
        (center_data (process_per_row_parts inp pp).x
          (CY.map (fun r => r.getD i [])) centers).1 :=
    ⟨hAVlen, fun i hi => ⟨hAVilen i hi, hAVi i hi⟩⟩
  -- (6) the averaged entropy signal
  have hAVmem : ∀ r ∈ AV, r.length = steps :=
    forall_mem_of_getD (P := fun r => r.length = steps) AV [] (fun k hk => by
      have hk4 : k < 4 := by rw [hAVlen] at hk; exact hk
      exact hAVilen k hk4)
  have g6 : (entropy_signal AV).length = steps ∧ ∀ s < steps,
      (entropy_signal AV).getD s none
        = entropyCombo ((AV.getD 0 []).getD s none)
            ((AV.getD 1 []).getD s none) ((AV.getD 2 []).getD s none)
            ((AV.getD 3 []).getD s none) :=
    entropy_signal_combo AV steps hAVlen hAVmem
  exact ⟨C, SA, CY, entropy_signal2 T, AV, entropy_signal AV, hPc, hPsa,
    hPcy, hPes, hAav, hAes, g1, g2, g3, g4, g5, g6⟩

end PyDat

namespace PyDat

/-- Witness: the pipeline correctness theorem applied to the concrete
two-row, four-setpoint, one-step, one-cycle scan `c2inp` with default
`ProcessParams` and centers `[0, 0]`. -/
theorem process_parts_correct_witness :
    (process_per_row_parts c2inp c2pp).chunked.length = 4 ∧
    (process_per_row_parts c2inp c2pp).entropy_signal.length = 2 ∧
    (process_avg_parts (process_per_row_parts c2inp c2pp) c2inp
      [0, 0]).averaged.length = 4 ∧
    (process_avg_parts (process_per_row_parts c2inp c2pp) c2inp
      [0, 0]).average_entropy_signal.length = 1 := by
  obtain ⟨ch, sa, cy, es, av, ae, hch, hsa, hcy, hes, hav, hae, g1, g2, g3,
    g4, g5, g6⟩ :=
    process_parts_correct c2inp c2pp [0, 0] [1, 1, 1, 1] 1 1 2 rfl
      (by decide) (by decide) rfl rfl (by decide) (by decide) rfl rfl
      (by decide) (by decide) (by decide) rfl
  refine ⟨?_, ?_, ?_, ?_⟩
  · rw [hch]
    exact g1.1
  · rw [hes]
    exact g4.1
  · rw [hav]
    exact g5.1
  · rw [hae]
    exact g6.1

end PyDat
